import Mathlib

/-!
Verification of the banyan tree engine as exposed by the examples in
`src/main.rs` (sequence_example, custom_index_example).

The repository's `src/` contains only example programs that call the banyan
engine (Forest / StreamBuilder / Transaction / Query).  The engine itself is
not part of the included sources, so — following the specification that was
written for this repository — the engine's data model and operations are
modelled from the spec below.  Definitions taken directly from source code
(the `RangeQuery` implementation of `custom_index_example`) are marked as
such.
-/

namespace Banyan

/-- Offset-enumeration of a list: pairs each element with its logical offset,
starting at `ofs`.  `iter_from` yields `(offset, key, value)` triples, which
for entries `(k, v)` is exactly `enumFrom ofs entries`. -/
def enumFrom (ofs : Nat) : List α → List (Nat × α)
  | [] => []
  | x :: xs => (ofs, x) :: enumFrom (ofs + 1) xs

theorem enumFrom_append (ofs : Nat) (xs ys : List α) :
    enumFrom ofs (xs ++ ys) = enumFrom ofs xs ++ enumFrom (ofs + xs.length) ys := by
  induction xs generalizing ofs with
  | nil => simp [enumFrom]
  | cons x xs ih =>
    simp only [List.cons_append, enumFrom, List.length_cons, List.append_eq]
    rw [ih (ofs + 1)]
    congr 3
    omega

theorem enumFrom_length (ofs : Nat) (xs : List α) :
    (enumFrom ofs xs).length = xs.length := by
  induction xs generalizing ofs with
  | nil => rfl
  | cons x xs ih => simp [enumFrom, ih]

/-- Modelled from the spec: a tree node is either a leaf holding an ordered
sequence of `(Key, Value)` pairs, or a branch holding an ordered sequence of
children together with its cached `level` (height above the leaves) and
cached `count` (total number of leaf entries in its subtree). -/
inductive Node (κ ν : Type) : Type where
  | leaf : List (κ × ν) → Node κ ν
  | branch : Nat → Nat → List (Node κ ν) → Node κ ν
deriving Repr

/-- The cached entry count of a node (leaves: actual length; branches: the
cached `count` field). -/
def nodeCount : Node κ ν → Nat
  | .leaf es => es.length
  | .branch _ c _ => c

/-- The level of a node: leaves are level 0, branches carry their level. -/
def nodeLevel : Node κ ν → Nat
  | .leaf _ => 0
  | .branch l _ _ => l

/-- Sum of cached counts of a list of nodes. -/
def sumCounts : List (Node κ ν) → Nat
  | [] => 0
  | c :: cs => nodeCount c + sumCounts cs

mutual
/-- The leaf entries contained in a node's subtree, in order. -/
def flatten : Node κ ν → List (κ × ν)
  | .leaf es => es
  | .branch _ _ cs => flattenList cs
/-- The leaf entries contained in a list of subtrees, in order. -/
def flattenList : List (Node κ ν) → List (κ × ν)
  | [] => []
  | c :: cs => flatten c ++ flattenList cs
end

mutual
/-- Structural well-formedness of a node, as maintained by the builder:
the cached count of every branch equals the sum of its children's cached
counts, and every child's level is exactly one less than the branch's level
(so all children share the same level). -/
def wfNode : Node κ ν → Bool
  | .leaf _ => true
  | .branch lvl cnt cs => decide (cnt = sumCounts cs) && wfChildren lvl cs
/-- Well-formedness of the children of a branch at level `lvl`. -/
def wfChildren : Nat → List (Node κ ν) → Bool
  | _, [] => true
  | lvl, c :: cs => decide (nodeLevel c + 1 = lvl) && wfNode c && wfChildren lvl cs
end

/-- Custom induction principle for `Node` (children of a branch are covered
by a membership hypothesis). -/
@[elab_as_elim]
def Node.indOn {κ ν : Type} {P : Node κ ν → Prop}
    (leaf : ∀ es, P (.leaf es))
    (branch : ∀ l c cs, (∀ x ∈ cs, P x) → P (.branch l c cs)) :
    ∀ nd, P nd
  | .leaf es => leaf es
  | .branch l c cs =>
    branch l c cs (fun x hx =>
      have : sizeOf x < 1 + sizeOf l + sizeOf c + sizeOf cs := by
        have h := List.sizeOf_lt_of_mem hx
        omega
      Node.indOn leaf branch x)
termination_by nd => sizeOf nd

theorem wfChildren_iff {lvl : Nat} {cs : List (Node κ ν)} :
    wfChildren lvl cs = true ↔ ∀ c ∈ cs, nodeLevel c + 1 = lvl ∧ wfNode c = true := by
  induction cs with
  | nil => simp [wfChildren]
  | cons c cs ih =>
    simp only [wfChildren, Bool.and_assoc, Bool.and_eq_true, decide_eq_true_eq, ih,
      List.mem_cons]
    constructor
    · rintro ⟨h1, h2, h3⟩ x hx
      rcases hx with rfl | hx
      · exact ⟨h1, h2⟩
      · exact h3 x hx
    · intro h
      exact ⟨(h c (Or.inl rfl)).1, (h c (Or.inl rfl)).2, fun x hx => h x (Or.inr hx)⟩

theorem flatten_branch (l c : Nat) (cs : List (Node κ ν)) :
    flatten (.branch l c cs) = flattenList cs := rfl

theorem flattenList_append (xs ys : List (Node κ ν)) :
    flattenList (xs ++ ys) = flattenList xs ++ flattenList ys := by
  induction xs with
  | nil => simp [flattenList]
  | cons x xs ih => simp [flattenList, ih]

/-- The count invariant: for a well-formed node, the cached count equals the
number of leaf entries in its subtree. -/
theorem wf_count {nd : Node κ ν} (h : wfNode nd = true) :
    nodeCount nd = (flatten nd).length := by
  induction nd using Node.indOn with
  | leaf es => rfl
  | branch l c cs ih =>
    simp only [wfNode, Bool.and_eq_true, decide_eq_true_eq] at h
    obtain ⟨hc, hcs⟩ := h
    rw [wfChildren_iff] at hcs
    simp only [nodeCount, flatten_branch, hc]
    clear hc
    induction cs with
    | nil => rfl
    | cons x xs ihx =>
      simp only [sumCounts, flattenList, List.length_append]
      rw [ih x (List.mem_cons_self _ _) (hcs x (List.mem_cons_self _ _)).2,
        ihx (fun y hy => ih y (List.mem_cons_of_mem _ hy))
          (fun y hy => hcs y (List.mem_cons_of_mem _ hy))]

/-- Sub-node relation: `Subnode a b` means `a` occurs in the subtree `b`. -/
inductive Subnode : Node κ ν → Node κ ν → Prop where
  | refl (nd : Node κ ν) : Subnode nd nd
  | child {nd c : Node κ ν} {l k : Nat} {cs : List (Node κ ν)} :
      c ∈ cs → Subnode nd c → Subnode nd (.branch l k cs)

/-- Well-formedness is hereditary: every sub-node of a well-formed node is
well-formed. -/
theorem wf_subnode {sub nd : Node κ ν} (hs : Subnode sub nd) (h : wfNode nd = true) :
    wfNode sub = true := by
  induction hs with
  | refl => exact h
  | child hc _ ih =>
    apply ih
    simp only [wfNode, Bool.and_eq_true, decide_eq_true_eq] at h
    exact ((wfChildren_iff.mp h.2) _ hc).2

/-! ## Stream builder -/

/-- Modelled from the spec: the builder configuration holds the node-size /
fan-out thresholds controlling when leaves and branches seal. -/
structure Config where
  leafMax : Nat
  branchMax : Nat
deriving Repr, DecidableEq

/-- Modelled from the spec: a "debug/fast" preset with small thresholds, used
for testing multi-level trees without large inputs (the exact values are not
observable from the examples). -/
def Config.debug_fast : Config := ⟨4, 4⟩

/-- Modelled from the spec: the mutable accumulation state of a
`StreamBuilder`: the pending unsealed entry buffer plus, per level, the list
of already sealed nodes awaiting folding into a branch (`pending[i]` holds
the sealed nodes of level `i`, oldest first). -/
structure BuilderState (κ ν : Type) where
  buffer : List (κ × ν)
  pending : List (List (Node κ ν))
deriving Repr

/-- The initial (empty) builder state. -/
def initState : BuilderState κ ν := ⟨[], []⟩

/-- Build a branch node at level `lvl` over children `cs`, caching the sum of
the children's counts. -/
def mkBranch (lvl : Nat) (cs : List (Node κ ν)) : Node κ ν :=
  .branch lvl (sumCounts cs) cs

/-- Modelled from the spec: push a freshly sealed node of level `lvl` onto
the pending list (whose head is level `lvl`); whenever a level accumulates
`branchMax` nodes they are folded into a new branch one level up, cascading
upward. -/
def pushNode (branchMax : Nat) : Nat → Node κ ν → List (List (Node κ ν)) → List (List (Node κ ν))
  | _, n, [] => [[n]]
  | lvl, n, ns :: rest =>
    let grown := ns ++ [n]
    if branchMax ≤ grown.length then
      [] :: pushNode branchMax (lvl + 1) (mkBranch (lvl + 1) grown) rest
    else
      grown :: rest

/-- Modelled from the spec: append one entry to the builder's buffer; once
the buffer reaches the leaf threshold it is sealed into a leaf and pushed
into the pending structure at level 0. -/
def pushEntry (cfg : Config) (st : BuilderState κ ν) (e : κ × ν) : BuilderState κ ν :=
  let buf := st.buffer ++ [e]
  if cfg.leafMax ≤ buf.length then
    ⟨[], pushNode cfg.branchMax 0 (.leaf buf) st.pending⟩
  else
    ⟨buf, st.pending⟩

/-- Modelled from the spec: `StreamBuilder::extend` — append a sequence of
entries to the builder, sealing leaves/branches as thresholds are reached;
the unsealed remainder stays buffered. -/
def extend (cfg : Config) (st : BuilderState κ ν) (es : List (κ × ν)) : BuilderState κ ν :=
  es.foldl (pushEntry cfg) st

/-- The entries contained in one pending level, in order. -/
def levelFlatten (ns : List (Node κ ν)) : List (κ × ν) := flattenList ns

/-- All entries contained in the pending structure, oldest first (higher
levels hold older entries). -/
def pendingFlatten : List (List (Node κ ν)) → List (κ × ν)
  | [] => []
  | ns :: rest => pendingFlatten rest ++ levelFlatten ns

/-- All entries held by the builder (sealed and unsealed), in insertion
order. -/
def flattenState (st : BuilderState κ ν) : List (κ × ν) :=
  pendingFlatten st.pending ++ st.buffer

theorem pushNode_flatten (branchMax lvl : Nat) (n : Node κ ν) (p : List (List (Node κ ν))) :
    pendingFlatten (pushNode branchMax lvl n p) = pendingFlatten p ++ flatten n := by
  induction p generalizing lvl n with
  | nil => simp [pushNode, pendingFlatten, levelFlatten, flattenList]
  | cons ns rest ih =>
    simp only [pushNode]
    by_cases h : branchMax ≤ (ns ++ [n]).length
    · simp only [h, if_pos]
      simp only [pendingFlatten, levelFlatten, ih, mkBranch, flatten_branch,
        flattenList, flattenList_append, List.append_nil, List.append_assoc]
    · simp only [h, if_neg, not_false_iff]
      simp [pendingFlatten, levelFlatten, flattenList_append, flattenList]

theorem pushEntry_flatten (cfg : Config) (st : BuilderState κ ν) (e : κ × ν) :
    flattenState (pushEntry cfg st e) = flattenState st ++ [e] := by
  simp only [pushEntry]
  split
  · simp [flattenState, pushNode_flatten, flatten, List.append_assoc]
  · simp [flattenState, List.append_assoc]

theorem extend_flatten (cfg : Config) (st : BuilderState κ ν) (es : List (κ × ν)) :
    flattenState (extend cfg st es) = flattenState st ++ es := by
  induction es generalizing st with
  | nil => simp [extend]
  | cons e es ih =>
    simp only [extend, List.foldl_cons] at *
    rw [ih, pushEntry_flatten, List.append_assoc]
    rfl

/-! ## Snapshot (structural part) -/

/-- Modelled from the spec: `snapshot()` seals the current buffer into a
final (possibly undersized) leaf and folds the whole pending state,
bottom-up, into a single root node.  `carry` is the (at most one) node of
level `lvl` built from the levels below; a level that ends up with a single
node and nothing above it becomes the root directly. -/
def sealUp (lvl : Nat) (carry : Option (Node κ ν)) :
    List (List (Node κ ν)) → Option (Node κ ν)
  | [] => carry
  | ns :: rest =>
    match ns ++ carry.toList with
    | [] => sealUp (lvl + 1) none rest
    | [n] =>
      if rest.all List.isEmpty then some n
      else sealUp (lvl + 1) (some (mkBranch (lvl + 1) [n])) rest
    | x :: y :: zs => sealUp (lvl + 1) (some (mkBranch (lvl + 1) (x :: y :: zs))) rest

/-- Modelled from the spec: the root node of `snapshot()` — `none` denotes
the empty tree. -/
def snapshotNode (st : BuilderState κ ν) : Option (Node κ ν) :=
  sealUp 0 (if st.buffer.isEmpty then none else some (.leaf st.buffer)) st.pending

/-- Entries of an optional root. -/
def rootFlatten : Option (Node κ ν) → List (κ × ν)
  | none => []
  | some nd => flatten nd

theorem pendingFlatten_all_empty {p : List (List (Node κ ν))}
    (h : p.all List.isEmpty = true) : pendingFlatten p = [] := by
  induction p with
  | nil => rfl
  | cons ns rest ih =>
    simp only [List.all_cons, Bool.and_eq_true, List.isEmpty_iff] at h
    simp [pendingFlatten, h.1, ih h.2, levelFlatten, flattenList]

@[simp] theorem rootFlatten_none : rootFlatten (none : Option (Node κ ν)) = [] := rfl

@[simp] theorem rootFlatten_some (nd : Node κ ν) :
    rootFlatten (some nd) = flatten nd := rfl

theorem carry_flatten (carry : Option (Node κ ν)) (ns : List (Node κ ν)) :
    flattenList (ns ++ carry.toList) = flattenList ns ++ rootFlatten carry := by
  cases carry with
  | none => simp [Option.toList, flattenList]
  | some nd => simp [Option.toList, flattenList_append, flattenList]

theorem sealUp_flatten (lvl : Nat) (carry : Option (Node κ ν)) (p : List (List (Node κ ν))) :
    rootFlatten (sealUp lvl carry p) = pendingFlatten p ++ rootFlatten carry := by
  induction p generalizing lvl carry with
  | nil => simp [sealUp, pendingFlatten]
  | cons ns rest ih =>
    have hflat : flattenList (ns ++ carry.toList) = flattenList ns ++ rootFlatten carry :=
      carry_flatten carry ns
    rcases hm : ns ++ carry.toList with _ | ⟨n, _ | ⟨y, zs⟩⟩
    · rw [hm] at hflat
      simp only [flattenList] at hflat
      simp only [sealUp, hm, ih]
      simp [pendingFlatten, levelFlatten, List.append_assoc, ← hflat]
    · rw [hm] at hflat
      simp only [flattenList, List.append_nil] at hflat
      simp only [sealUp, hm]
      by_cases hrest : rest.all List.isEmpty
      · rw [if_pos hrest]
        simp [pendingFlatten_all_empty hrest, pendingFlatten, levelFlatten, hflat]
      · rw [if_neg hrest, ih]
        simp [pendingFlatten, levelFlatten, mkBranch, flatten_branch, flattenList,
          List.append_assoc, hflat]
    · rw [hm] at hflat
      simp only [sealUp, hm, ih]
      simp only [rootFlatten_some, mkBranch, flatten_branch, pendingFlatten, levelFlatten,
        List.append_assoc]
      rw [hflat]

theorem snapshotNode_flatten (st : BuilderState κ ν) :
    rootFlatten (snapshotNode st) = flattenState st := by
  simp only [snapshotNode, sealUp_flatten, flattenState]
  by_cases h : st.buffer.isEmpty
  · rw [if_pos h]
    simp only [rootFlatten_none, List.append_nil]
    rw [List.isEmpty_iff.mp h, List.append_nil]
  · rw [if_neg h]
    simp only [rootFlatten_some, flatten]

/-! ## Builder invariants (balance and count caching) -/

/-- The builder's pending-structure invariant: the nodes stored at pending
position `i` (counting from `lvl` for the head) are well-formed and have
level exactly `lvl + i`. -/
def pendingWF : Nat → List (List (Node κ ν)) → Prop
  | _, [] => True
  | lvl, ns :: rest =>
    (∀ c ∈ ns, wfNode c = true ∧ nodeLevel c = lvl) ∧ pendingWF (lvl + 1) rest

theorem mkBranch_wf {lvl : Nat} {cs : List (Node κ ν)}
    (h : ∀ c ∈ cs, wfNode c = true ∧ nodeLevel c = lvl) :
    wfNode (mkBranch (lvl + 1) cs) = true ∧ nodeLevel (mkBranch (lvl + 1) cs) = lvl + 1 := by
  refine ⟨?_, rfl⟩
  simp only [mkBranch, wfNode, Bool.and_eq_true, decide_eq_true_eq]
  refine ⟨by simp, wfChildren_iff.mpr fun c hc => ?_⟩
  exact ⟨by rw [(h c hc).2], (h c hc).1⟩

theorem pushNode_wf {branchMax lvl : Nat} {n : Node κ ν} {p : List (List (Node κ ν))}
    (hn : wfNode n = true) (hl : nodeLevel n = lvl) (hp : pendingWF lvl p) :
    pendingWF lvl (pushNode branchMax lvl n p) := by
  induction p generalizing lvl n with
  | nil =>
    refine ⟨fun c hc => ?_, trivial⟩
    rcases List.mem_singleton.mp hc with rfl
    exact ⟨hn, hl⟩
  | cons ns rest ih =>
    obtain ⟨hns, hrest⟩ := hp
    have hgrown : ∀ c ∈ ns ++ [n], wfNode c = true ∧ nodeLevel c = lvl := by
      intro c hc
      rcases List.mem_append.mp hc with hc | hc
      · exact hns c hc
      · rcases List.mem_singleton.mp hc with rfl
        exact ⟨hn, hl⟩
    simp only [pushNode]
    split
    · obtain ⟨hw, hlev⟩ := mkBranch_wf hgrown
      exact ⟨fun c hc => absurd hc (List.not_mem_nil c), ih hw hlev hrest⟩
    · exact ⟨hgrown, hrest⟩

theorem pushEntry_wf {cfg : Config} {st : BuilderState κ ν} {e : κ × ν}
    (hp : pendingWF 0 st.pending) : pendingWF 0 (pushEntry cfg st e).pending := by
  simp only [pushEntry]
  split
  · exact pushNode_wf rfl rfl hp
  · exact hp

theorem extend_wf {cfg : Config} {st : BuilderState κ ν} {es : List (κ × ν)}
    (hp : pendingWF 0 st.pending) : pendingWF 0 (extend cfg st es).pending := by
  induction es generalizing st with
  | nil => exact hp
  | cons e es ih => exact ih (pushEntry_wf hp)

theorem sealUp_wf {lvl : Nat} {carry : Option (Node κ ν)} {p : List (List (Node κ ν))}
    (hc : ∀ c ∈ carry.toList, wfNode c = true ∧ nodeLevel c = lvl)
    (hp : pendingWF lvl p) :
    ∀ root, sealUp lvl carry p = some root → wfNode root = true := by
  induction p generalizing lvl carry with
  | nil =>
    intro root h
    simp only [sealUp] at h
    cases carry with
    | none => cases h
    | some nd =>
      cases h
      exact (hc root (by simp [Option.toList])).1
  | cons ns rest ih =>
    intro root h
    obtain ⟨hns, hrest⟩ := hp
    have hall : ∀ c ∈ ns ++ carry.toList, wfNode c = true ∧ nodeLevel c = lvl := by
      intro c hmem
      rcases List.mem_append.mp hmem with hmem | hmem
      · exact hns c hmem
      · exact hc c hmem
    rcases hm : ns ++ carry.toList with _ | ⟨n, _ | ⟨y, zs⟩⟩ <;> rw [hm] at hall
    · simp only [sealUp, hm] at h
      exact ih (fun c hmem => by simp [Option.toList] at hmem) hrest root h
    · simp only [sealUp, hm] at h
      by_cases hre : rest.all List.isEmpty
      · rw [if_pos hre] at h
        cases h
        exact (hall root (by simp)).1
      · rw [if_neg hre] at h
        have hb := @mkBranch_wf _ _ lvl [n] hall
        exact ih (fun c hmem => by
          rcases (by simpa [Option.toList] using hmem : c = mkBranch (lvl + 1) [n]) with rfl
          exact hb) hrest root h
    · simp only [sealUp, hm] at h
      have hb := @mkBranch_wf _ _ lvl (n :: y :: zs) hall
      exact ih (fun c hmem => by
        rcases (by simpa [Option.toList] using hmem : c = mkBranch (lvl + 1) (n :: y :: zs)) with rfl
        exact hb) hrest root h

theorem snapshotNode_wf {st : BuilderState κ ν} (hp : pendingWF 0 st.pending) :
    ∀ root, snapshotNode st = some root → wfNode root = true := by
  intro root h
  simp only [snapshotNode] at h
  by_cases hb : st.buffer.isEmpty
  · rw [if_pos hb] at h
    exact sealUp_wf (fun c hc => by simp [Option.toList] at hc) hp root h
  · rw [if_neg hb] at h
    refine sealUp_wf (fun c hc => ?_) hp root h
    rcases (by simpa [Option.toList] using hc : c = Node.leaf st.buffer) with rfl
    exact ⟨rfl, rfl⟩

/-- Nodes built by any sequence of `extend` calls from the empty builder have
a well-formed pending structure. -/
theorem extends_wf (cfg : Config) (ess : List (List (κ × ν))) :
    pendingWF 0 (ess.foldl (extend cfg) (initState (κ := κ) (ν := ν))).pending := by
  have : ∀ st : BuilderState κ ν, pendingWF 0 st.pending →
      pendingWF 0 (ess.foldl (extend cfg) st).pending := by
    induction ess with
    | nil => intro st h; exact h
    | cons es ess ih => intro st h; exact ih _ (extend_wf h)
  exact this initState trivial

/-- Entries accumulated by a sequence of `extend` calls, in order. -/
theorem extends_flatten (cfg : Config) (ess : List (List (κ × ν))) :
    flattenState (ess.foldl (extend cfg) (initState (κ := κ) (ν := ν))) =
      ess.foldl (· ++ ·) [] := by
  have : ∀ (st : BuilderState κ ν),
      flattenState (ess.foldl (extend cfg) st) = ess.foldl (· ++ ·) (flattenState st) := by
    induction ess with
    | nil => intro st; rfl
    | cons es ess ih =>
      intro st
      simp only [List.foldl_cons, ih, extend_flatten]
  rw [this initState]
  rfl

/-! ## Index summaries and the query protocol -/

/-- Modelled from the spec: the per-tree-type summary configuration — how to
summarize a run of raw keys (leaf index) and a run of child summaries
(branch index). -/
structure SummaryFn (κ σ : Type) where
  summarizeKeys : List κ → σ
  summarizeSummaries : List σ → σ

mutual
/-- Modelled from the spec: the summary of a node — a leaf is summarized
from its keys, a branch from its children's summaries. -/
def nodeSummary (tt : SummaryFn κ σ) : Node κ ν → σ
  | .leaf es => tt.summarizeKeys (es.map Prod.fst)
  | .branch _ _ cs => tt.summarizeSummaries (summaryList tt cs)
/-- Summaries of a list of sibling nodes, in order. -/
def summaryList (tt : SummaryFn κ σ) : List (Node κ ν) → List σ
  | [] => []
  | c :: cs => nodeSummary tt c :: summaryList tt cs
end

theorem summaryList_eq_map (tt : SummaryFn κ σ) (cs : List (Node κ ν)) :
    summaryList (ν := ν) tt cs = cs.map (nodeSummary tt) := by
  induction cs with
  | nil => rfl
  | cons c cs ih => simp [summaryList, ih]

/-- Modelled from the spec: the pluggable `Query` capability — `containing`
maps a leaf's base offset and ordered keys to one flag per entry,
`intersecting` maps a branch's base offset and per-child summaries to one
flag per child. -/
structure QueryFn (κ σ : Type) where
  containing : Nat → List κ → List Bool
  intersecting : Nat → List σ → List Bool

mutual
/-- Modelled from the spec: full in-order traversal (`iter_from`) of a node,
yielding `(offset, key, value)` triples with offsets starting at `ofs`;
child offsets are advanced using cached counts. -/
def iterFromNode : Nat → Node κ ν → List (Nat × κ × ν)
  | ofs, .leaf es => enumFrom ofs es
  | ofs, .branch _ _ cs => iterFromList ofs cs
/-- Traversal of a list of sibling subtrees. -/
def iterFromList : Nat → List (Node κ ν) → List (Nat × κ × ν)
  | _, [] => []
  | ofs, c :: cs => iterFromNode ofs c ++ iterFromList (ofs + nodeCount c) cs
end

/-- Apply leaf flags: keep the entries whose flag is `true`, with their
offsets. -/
def applyFlags (ofs : Nat) : List Bool → List (κ × ν) → List (Nat × κ × ν)
  | _, [] => []
  | [], _ :: _ => []
  | f :: fs, e :: es => (if f then [(ofs, e)] else []) ++ applyFlags (ofs + 1) fs es

mutual
/-- Modelled from the spec: pruned traversal (`iter_filtered`).  At a leaf,
the query's `containing` flags select which entries are emitted; at a
branch, the query's `intersecting` flags (computed from the children's
summaries) select which children are descended into — unflagged children are
skipped entirely. -/
def iterFilteredNode (tt : SummaryFn κ σ) (q : QueryFn κ σ) :
    Nat → Node κ ν → List (Nat × κ × ν)
  | ofs, .leaf es => applyFlags ofs (q.containing ofs (es.map Prod.fst)) es
  | ofs, .branch _ _ cs =>
    iterFilteredList tt q ofs cs (q.intersecting ofs (cs.map (nodeSummary tt)))
/-- Pruned traversal of sibling subtrees, driven by the branch flags. -/
def iterFilteredList (tt : SummaryFn κ σ) (q : QueryFn κ σ) :
    Nat → List (Node κ ν) → List Bool → List (Nat × κ × ν)
  | _, [], _ => []
  | _, _ :: _, [] => []
  | ofs, c :: cs, f :: fs =>
    (if f then iterFilteredNode tt q ofs c else []) ++
      iterFilteredList tt q (ofs + nodeCount c) cs fs
end

/-- `iter_from` on a well-formed node yields exactly the node's entries,
enumerated from the base offset. -/
theorem iterFromNode_eq_enumFrom {nd : Node κ ν} (h : wfNode nd = true) (ofs : Nat) :
    iterFromNode ofs nd = enumFrom ofs (flatten nd) := by
  induction nd using Node.indOn generalizing ofs with
  | leaf es => rfl
  | branch l c cs ih =>
    simp only [wfNode, Bool.and_eq_true, decide_eq_true_eq] at h
    have hcs := wfChildren_iff.mp h.2
    simp only [iterFromNode, flatten_branch]
    have aux : ∀ xs : List (Node κ ν), (∀ y ∈ xs, y ∈ cs) → (∀ y ∈ xs, wfNode y = true) →
        ∀ o, iterFromList o xs = enumFrom o (flattenList xs) := by
      intro xs
      induction xs with
      | nil => intro _ _ _; rfl
      | cons x xs2 ihx =>
        intro hsub hwf o
        simp only [iterFromList, flattenList, enumFrom_append]
        rw [ih x (hsub x (List.mem_cons_self _ _)) (hwf x (List.mem_cons_self _ _)) o,
          ihx (fun y hy => hsub y (List.mem_cons_of_mem _ hy))
            (fun y hy => hwf y (List.mem_cons_of_mem _ hy)) (o + nodeCount x),
          wf_count (hwf x (List.mem_cons_self _ _))]
    exact aux cs (fun y hy => hy) (fun y hy => (hcs y hy).2) ofs

theorem applyFlags_pred (p : Nat → κ → Bool) (es : List (κ × ν)) (ofs : Nat) :
    applyFlags ofs ((enumFrom ofs (es.map Prod.fst)).map (fun ik => p ik.1 ik.2)) es =
      (enumFrom ofs es).filter (fun it => p it.1 it.2.1) := by
  induction es generalizing ofs with
  | nil => rfl
  | cons e es ih =>
    simp only [List.map_cons, enumFrom, List.map, applyFlags, List.filter_cons]
    rw [ih (ofs + 1)]
    by_cases hp : p ofs e.1
    · simp [hp]
    · simp [hp]

/-- Pruned traversal equals exhaustively filtering the full traversal,
provided `containing` computes a pointwise leaf predicate `p` and
`intersecting` never flags `false` a child whose subtree contains an entry
satisfying `p` (sound over-approximation). -/
theorem iterFiltered_eq_filter (tt : SummaryFn κ σ) (q : QueryFn κ σ) (p : Nat → κ → Bool)
    (hcont : ∀ ofs keys, q.containing ofs keys =
      (enumFrom ofs keys).map (fun ik => p ik.1 ik.2))
    (hlen : ∀ ofs sums, (q.intersecting ofs sums).length = sums.length)
    (hsound : ∀ ofs (cs : List (Node κ ν)) i c, cs[i]? = some c →
      (∃ it ∈ iterFromNode (ofs + sumCounts (cs.take i)) c, p it.1 it.2.1 = true) →
      (q.intersecting ofs (cs.map (nodeSummary tt)))[i]? = some true)
    {nd : Node κ ν} (h : wfNode nd = true) (ofs : Nat) :
    iterFilteredNode tt q ofs nd = (iterFromNode ofs nd).filter (fun it => p it.1 it.2.1) := by
  induction nd using Node.indOn generalizing ofs with
  | leaf es =>
    simp only [iterFilteredNode, iterFromNode, hcont]
    exact applyFlags_pred p es ofs
  | branch l c cs ih =>
    simp only [wfNode, Bool.and_eq_true, decide_eq_true_eq] at h
    have hcs := wfChildren_iff.mp h.2
    simp only [iterFilteredNode, iterFromNode]
    have aux : ∀ xs : List (Node κ ν), ∀ fs : List Bool, ∀ o : Nat,
        (∀ y ∈ xs, y ∈ cs) → (∀ y ∈ xs, wfNode y = true) →
        fs.length = xs.length →
        (∀ j x, xs[j]? = some x →
          (∃ it ∈ iterFromNode (o + sumCounts (xs.take j)) x, p it.1 it.2.1 = true) →
          fs[j]? = some true) →
        iterFilteredList tt q o xs fs = (iterFromList o xs).filter (fun it => p it.1 it.2.1) := by
      intro xs
      induction xs with
      | nil => intro fs o _ _ _ _; simp [iterFilteredList, iterFromList]
      | cons x xs2 ihx =>
        intro fs o hsub hwf hflen hfs
        match fs with
        | [] => simp at hflen
        | f :: fs2 =>
          simp only [iterFilteredList, iterFromList, List.filter_append]
          have htail : iterFilteredList tt q (o + nodeCount x) xs2 fs2 =
              (iterFromList (o + nodeCount x) xs2).filter (fun it => p it.1 it.2.1) := by
            refine ihx fs2 (o + nodeCount x) (fun y hy => hsub y (List.mem_cons_of_mem _ hy))
              (fun y hy => hwf y (List.mem_cons_of_mem _ hy))
              (by simpa using hflen) ?_
            intro j y hj hex
            have : (f :: fs2)[j + 1]? = some true := by
              refine hfs (j + 1) y (by simpa using hj) ?_
              obtain ⟨it, hit, hpit⟩ := hex
              refine ⟨it, ?_, hpit⟩
              have harith : o + nodeCount x + sumCounts (xs2.take j) =
                  o + sumCounts ((x :: xs2).take (j + 1)) := by
                simp only [List.take_succ_cons, sumCounts]
                omega
              rwa [harith] at hit
            simpa using this
          cases hf : f with
          | true =>
            rw [htail, ih x (hsub x (List.mem_cons_self _ _))
              (hwf x (List.mem_cons_self _ _)) o]
            simp
          | false =>
            have hempty : (iterFromNode o x).filter (fun it => p it.1 it.2.1) = [] := by
              rw [List.filter_eq_nil_iff]
              intro it hit
              by_contra hpc
              have hpit : p it.1 it.2.1 = true := by
                revert hpc
                cases p it.1 it.2.1 <;> simp
              have := hfs 0 x (by simp) ⟨it, by simpa [sumCounts] using hit, hpit⟩
              simp [hf] at this
            rw [htail, hempty]
            simp
    exact aux cs (q.intersecting ofs (cs.map (nodeSummary tt))) ofs
      (fun y hy => hy) (fun y hy => (hcs y hy).2)
      (by rw [hlen, List.length_map])
      (fun j x hj hex => hsound ofs cs j x hj hex)

/-! ## Block store, encryption and codecs -/

/-- Raw block bytes (an abstract byte is a `Nat`). -/
abbrev Bytes := List Nat

/-- Modelled from the spec: a `Link` is a content digest identifying an
immutable persisted block. -/
abbrev Link := List Nat

/-- Modelled from the spec: the digest function is an external collaborator,
treated as a deterministic, collision-free content address; it is idealized
here as the injective identity embedding of the block bytes. -/
def digest (b : Bytes) : Link := b

/-- Modelled from the spec: the content-addressed block store, a map from
`Link` to block bytes. -/
abbrev Store := List (Link × Bytes)

/-- `get(Link) -> bytes`: fetch a block, `none` models `NotFound`. -/
def storeGet : Store → Link → Option Bytes
  | [], _ => none
  | (l', b) :: rest, l => if l' = l then some b else storeGet rest l

/-- `put(bytes) -> Link`: content-addressed write.  The link is the digest of
the bytes; if the store already holds that link, no second entry is
created. -/
def storePut (s : Store) (b : Bytes) : Link × Store :=
  let l := digest b
  (l, if (storeGet s l).isSome then s else s ++ [(l, b)])

/-- Store well-formedness: every entry's key is the digest of its bytes. -/
def wfStoreB (s : Store) : Bool :=
  s.all fun p => decide (p.1 = digest p.2)

/-- Store extension: every block readable in `s₁` is readable, with the same
bytes, in `s₂` (persisted blocks are never mutated or retracted). -/
def StoreLe (s₁ s₂ : Store) : Prop :=
  ∀ l b, storeGet s₁ l = some b → storeGet s₂ l = some b

theorem storeLe_refl (s : Store) : StoreLe s s := fun _ _ h => h

theorem storeLe_trans {s₁ s₂ s₃ : Store} (h₁ : StoreLe s₁ s₂) (h₂ : StoreLe s₂ s₃) :
    StoreLe s₁ s₃ := fun l b h => h₂ l b (h₁ l b h)

theorem storeGet_append_left {s₁ s₂ : Store} {l : Link} {b : Bytes}
    (h : storeGet s₁ l = some b) : storeGet (s₁ ++ s₂) l = some b := by
  induction s₁ with
  | nil => cases h
  | cons p rest ih =>
    obtain ⟨l', b'⟩ := p
    simp only [storeGet, List.cons_append] at h ⊢
    split at h
    · simp [*]
    · rw [if_neg ‹¬ l' = l›]
      exact ih h

theorem storePut_le (s : Store) (b : Bytes) : StoreLe s (storePut s b).2 := by
  intro l' b' h
  simp only [storePut]
  split
  · exact h
  · exact storeGet_append_left h

theorem storeGet_wf {s : Store} (hwf : wfStoreB s = true) {l : Link} {b : Bytes}
    (h : storeGet s l = some b) : l = digest b := by
  induction s with
  | nil => cases h
  | cons p rest ih =>
    obtain ⟨l', b'⟩ := p
    simp only [wfStoreB, List.all_cons, Bool.and_eq_true, decide_eq_true_eq] at hwf
    simp only [storeGet] at h
    split at h
    · cases h
      rw [← ‹l' = l›, hwf.1]
    · exact ih (by simp [wfStoreB, hwf.2]) h

theorem storeGet_append_self {s : Store} {l : Link} {b : Bytes} (h : storeGet s l = none) :
    storeGet (s ++ [(l, b)]) l = some b := by
  induction s with
  | nil => simp [storeGet]
  | cons p rest ih =>
    obtain ⟨l', b'⟩ := p
    simp only [storeGet, List.cons_append] at h ⊢
    split at h
    · simp at h
    · rw [if_neg ‹¬ l' = l›]
      exact ih h

theorem storePut_get {s : Store} (hwf : wfStoreB s = true) (b : Bytes) :
    storeGet (storePut s b).2 (storePut s b).1 = some b := by
  simp only [storePut]
  split
  · rename_i h
    obtain ⟨b', hb'⟩ := Option.isSome_iff_exists.mp h
    have hbb := storeGet_wf hwf hb'
    rw [hb']
    have hb : b' = b := by simpa [digest] using hbb.symm
    rw [hb]
  · rename_i h
    exact storeGet_append_self (Option.not_isSome_iff_eq_none.mp h)

theorem storePut_wf {s : Store} (hwf : wfStoreB s = true) (b : Bytes) :
    wfStoreB (storePut s b).2 = true := by
  simp only [storePut]
  split
  · exact hwf
  · simp only [wfStoreB, List.all_append, Bool.and_eq_true] at *
    exact ⟨hwf, by simp⟩

/-- When the block is already present (under the digest of the same bytes),
`put` leaves the store unchanged. -/
theorem storePut_of_present {s : Store} {b : Bytes}
    (h : (storeGet s (digest b)).isSome) : storePut s b = (digest b, s) := by
  simp only [storePut, if_pos h]

/-! ### Encryption (codec layer) -/

/-- Symmetric key material. -/
abbrev Secrets := List Nat

/-- The per-tree-type nonce (domain-separation constant). -/
abbrev NonceT := List Nat

/-- Length-prefixed encoding of a raw `Nat` list. -/
def encLen (xs : List Nat) : List Nat := xs.length :: xs

/-- Read `n` items off the front of a byte stream. -/
def takeN : Nat → List Nat → Option (List Nat × List Nat)
  | 0, r => some ([], r)
  | _ + 1, [] => none
  | n + 1, x :: r => (takeN n r).map fun p => (x :: p.1, p.2)

/-- Parse a length-prefixed `Nat` list off the front of a byte stream. -/
def decLen : List Nat → Option (List Nat × List Nat)
  | [] => none
  | n :: r => takeN n r

theorem takeN_append (xs rest : List Nat) : takeN xs.length (xs ++ rest) = some (xs, rest) := by
  induction xs with
  | nil => rfl
  | cons x xs ih => simp [takeN, ih]

theorem decLen_append (xs rest : List Nat) : decLen (encLen xs ++ rest) = some (xs, rest) := by
  simp [encLen, decLen, takeN_append]

/-- Modelled from the spec: the codec/encryption layer.  A node payload is
sealed under a `(Secrets, Nonce)` pair; the ciphertext is bound to the exact
pair it was produced under (authenticated encryption). -/
def encrypt (s : Secrets) (n : NonceT) (payload : Bytes) : Bytes :=
  encLen s ++ encLen n ++ payload

/-- Modelled from the spec: decryption checks that the ciphertext was sealed
under the same `(Secrets, Nonce)` pair and fails (`Corrupt`) otherwise —
wrong secrets or a foreign nonce never yield silently wrong data. -/
def decrypt (s : Secrets) (n : NonceT) (ct : Bytes) : Option Bytes := do
  let (s', r) ← decLen ct
  let (n', r') ← decLen r
  if s' = s ∧ n' = n then some r' else none

theorem decrypt_encrypt (s : Secrets) (n : NonceT) (p : Bytes) :
    decrypt s n (encrypt s n p) = some p := by
  simp [encrypt, decrypt, decLen_append, List.append_assoc, Option.bind]

theorem decrypt_encrypt_ne (s n s' n' : List Nat) (p : Bytes)
    (h : ¬(s = s' ∧ n = n')) : decrypt s' n' (encrypt s n p) = none := by
  simp only [encrypt, decrypt, List.append_assoc, decLen_append, Option.bind_eq_bind,
    Option.some_bind]
  rw [if_neg]
  intro ⟨h1, h2⟩
  exact h ⟨h1, h2⟩

/-! ### Generic key/value/summary codecs -/

/-- A prefix codec for values of type `α` with a proven round-trip law:
application key, value and summary types are serialized through such
codecs. -/
structure Codec (α : Type) where
  enc : α → List Nat
  dec : List Nat → Option (α × List Nat)
  rt : ∀ a rest, dec (enc a ++ rest) = some (a, rest)

/-- Codec for `Nat`. -/
def natCodec : Codec Nat where
  enc n := [n]
  dec bs := match bs with
    | [] => none
    | x :: r => some (x, r)
  rt := by intro a rest; rfl

/-- Codec for `Unit` (the key/summary type of `sequence_example`). -/
def unitCodec : Codec Unit where
  enc _ := []
  dec bs := some ((), bs)
  rt := by intro a rest; rfl

/-- Codec for pairs. -/
def pairCodec (c : Codec α) (d : Codec β) : Codec (α × β) where
  enc p := c.enc p.1 ++ d.enc p.2
  dec bs := (c.dec bs).bind fun (a, r) => (d.dec r).map fun (b, r') => ((a, b), r')
  rt := by
    intro a rest
    simp [List.append_assoc, Codec.rt]

/-- Parse `n` consecutive items. -/
def decItems (c : Codec α) : Nat → List Nat → Option (List α × List Nat)
  | 0, r => some ([], r)
  | n + 1, r => (c.dec r).bind fun (a, r') =>
      (decItems c n r').map fun (as, r'') => (a :: as, r'')

/-- Codec for lists (length-prefixed). -/
def listCodec (c : Codec α) : Codec (List α) where
  enc xs := xs.length :: xs.foldr (fun a r => c.enc a ++ r) []
  dec bs := match bs with
    | [] => none
    | n :: r => decItems c n r
  rt := by
    intro xs rest
    suffices h : ∀ rest, decItems c xs.length (xs.foldr (fun a r => c.enc a ++ r) [] ++ rest) =
        some (xs, rest) by
      simp [h]
    induction xs with
    | nil => intro rest; rfl
    | cons x xs ih =>
      intro rest
      simp [decItems, List.append_assoc, Codec.rt, ih]

/-! ### Persisted node blocks -/

/-- Modelled from the spec: the decoded content of a persisted block — a leaf
block holds the entries, a branch block holds its level and one
`(Link, count, level, Summary)` tuple per child. -/
inductive Block (κ ν σ : Type) : Type where
  | leafB : List (κ × ν) → Block κ ν σ
  | branchB : Nat → List (Link × Nat × Nat × σ) → Block κ ν σ
deriving DecidableEq

/-- Codec for one branch-child reference. -/
def childCodec (cσ : Codec σ) : Codec (Link × Nat × Nat × σ) :=
  pairCodec (listCodec natCodec) (pairCodec natCodec (pairCodec natCodec cσ))

/-- Encode a block (with a leading discriminator byte). -/
def encodeBlock (ck : Codec κ) (cv : Codec ν) (cσ : Codec σ) : Block κ ν σ → Bytes
  | .leafB es => 0 :: (listCodec (pairCodec ck cv)).enc es
  | .branchB lvl cs => 1 :: lvl :: (listCodec (childCodec cσ)).enc cs

/-- Decode a block; fails (`Corrupt`) on an unknown discriminator or
malformed payload. -/
def decodeBlock (ck : Codec κ) (cv : Codec ν) (cσ : Codec σ) (bs : Bytes) :
    Option (Block κ ν σ) :=
  match bs with
  | 0 :: r =>
    match (listCodec (pairCodec ck cv)).dec r with
    | some (es, []) => some (.leafB es)
    | _ => none
  | 1 :: lvl :: r =>
    match (listCodec (childCodec cσ)).dec r with
    | some (cs, []) => some (.branchB lvl cs)
    | _ => none
  | _ => none

theorem decodeBlock_encodeBlock (ck : Codec κ) (cv : Codec ν) (cσ : Codec σ)
    (b : Block κ ν σ) : decodeBlock ck cv cσ (encodeBlock ck cv cσ b) = some b := by
  cases b with
  | leafB es =>
    have h := (listCodec (pairCodec ck cv)).rt es []
    rw [List.append_nil] at h
    simp [encodeBlock, decodeBlock, h]
  | branchB lvl cs =>
    have h := (listCodec (childCodec cσ)).rt cs []
    rw [List.append_nil] at h
    simp [encodeBlock, decodeBlock, h]

/-! ## Persisting trees through the Forest -/

section Persist

variable {κ ν σ : Type}
variable (tt : SummaryFn κ σ) (ck : Codec κ) (cv : Codec ν) (cσ : Codec σ)
variable (s : Secrets) (n : NonceT)

mutual
/-- Modelled from the spec: the Link under which a node is persisted — the
digest of its encrypted encoding (children are referenced by their own
links, so a node's link is a pure function of its content, the Secrets and
the Nonce). -/
def nodeLink : Node κ ν → Link
  | .leaf es => digest (encrypt s n (encodeBlock ck cv cσ (.leafB es)))
  | .branch lvl _ cs =>
    digest (encrypt s n (encodeBlock ck cv cσ (.branchB lvl (childRefs cs))))
/-- The `(Link, count, level, Summary)` references of a branch's children,
as stored in the branch block. -/
def childRefs : List (Node κ ν) → List (Link × Nat × Nat × σ)
  | [] => []
  | c :: cs => (nodeLink c, nodeCount c, nodeLevel c, nodeSummary tt c) :: childRefs cs
end

/-- The block content of a node. -/
def blockOfNode : Node κ ν → Block κ ν σ
  | .leaf es => .leafB es
  | .branch lvl _ cs => .branchB lvl (childRefs tt ck cv cσ s n cs)

/-- The encrypted encoded bytes of a node's block. -/
def nodeBytes (nd : Node κ ν) : Bytes :=
  encrypt s n (encodeBlock ck cv cσ (blockOfNode tt ck cv cσ s n nd))

theorem nodeLink_eq_digest (nd : Node κ ν) :
    nodeLink tt ck cv cσ s n nd = digest (nodeBytes tt ck cv cσ s n nd) := by
  cases nd <;> simp [nodeLink, nodeBytes, blockOfNode]

mutual
/-- Modelled from the spec: persist a whole subtree — children first, then
the node's own encrypted block — into the content-addressed store. -/
def persistTree : Node κ ν → Store → Store
  | .leaf es, st => (storePut st (nodeBytes tt ck cv cσ s n (.leaf es))).2
  | .branch lvl cnt cs, st =>
    (storePut (persistForest cs st) (nodeBytes tt ck cv cσ s n (.branch lvl cnt cs))).2
/-- Persist a list of subtrees, left to right. -/
def persistForest : List (Node κ ν) → Store → Store
  | [], st => st
  | c :: cs, st => persistForest cs (persistTree c st)
end

/-- Modelled from the spec: `persist(Node) -> Link` — encode, encrypt, write
to store, return the resulting Link; a pure, deterministic function of the
node's bytes plus Secrets plus Nonce. -/
def persistNode (nd : Node κ ν) (st : Store) : Link × Store :=
  (nodeLink tt ck cv cσ s n nd, persistTree tt ck cv cσ s n nd st)

mutual
/-- All blocks of a subtree are readable from the store (with the correct
bytes). -/
def persistedIn (store : Store) : Node κ ν → Bool
  | .leaf es =>
    decide (storeGet store (nodeLink tt ck cv cσ s n (.leaf es)) =
      some (nodeBytes tt ck cv cσ s n (.leaf es)))
  | .branch lvl cnt cs =>
    decide (storeGet store (nodeLink tt ck cv cσ s n (.branch lvl cnt cs)) =
      some (nodeBytes tt ck cv cσ s n (.branch lvl cnt cs))) && persistedForest store cs
/-- All blocks of a list of subtrees are readable from the store. -/
def persistedForest (store : Store) : List (Node κ ν) → Bool
  | [] => true
  | c :: cs => persistedIn store c && persistedForest store cs
end

/-- Traversal/lookup failures: a missing block or a failed
decryption/decode. -/
inductive IterErr : Type where
  | notFound
  | corrupt
deriving Repr, DecidableEq

/-- Modelled from the spec: `Forest::load` — fetch the block bytes from the
store (`NotFound` if absent), decrypt them under the forest's Secrets+Nonce
and decode them (`Corrupt` on failure). -/
def loadBlock (store : Store) (l : Link) : Except IterErr (Block κ ν σ) :=
  match storeGet store l with
  | none => .error .notFound
  | some bytes =>
    match decrypt s n bytes with
    | none => .error .corrupt
    | some payload =>
      match decodeBlock ck cv cσ payload with
      | none => .error .corrupt
      | some b => .ok b

mutual
/-- Modelled from the spec: lazy traversal (`iter_from`) read back from the
store, starting at base offset `ofs`.  The result is the list of items
yielded before any failure, together with the terminal error (if any): a
failed load surfaces at exactly the position where it was needed and ends
the sequence.  `fuel` bounds the recursion depth (any fuel exceeding the
root's level is enough). -/
def iterLink (fuel : Nat) (store : Store) (ofs : Nat) (l : Link) :
    List (Nat × κ × ν) × Option IterErr :=
  match fuel with
  | 0 => ([], some .corrupt)
  | fuel + 1 =>
    match loadBlock ck cv cσ s n store l with
    | .error e => ([], some e)
    | .ok (.leafB es) => (enumFrom ofs es, none)
    | .ok (.branchB _ refs) => iterChildren fuel store ofs refs
  termination_by (fuel, 0)
/-- Traverse the referenced children in order, advancing the offset by the
stored child counts; a child's error terminates the whole sequence. -/
def iterChildren (fuel : Nat) (store : Store) (ofs : Nat) :
    List (Link × Nat × Nat × σ) → List (Nat × κ × ν) × Option IterErr
  | [] => ([], none)
  | (l, cnt, _, _) :: rest =>
    match iterLink fuel store ofs l with
    | (items, some e) => (items, some e)
    | (items, none) =>
      match iterChildren fuel store (ofs + cnt) rest with
      | (items2, err2) => (items ++ items2, err2)
  termination_by refs => (fuel, refs.length + 1)
end

/-- Modelled from the spec: an immutable tree snapshot — a root Link (or
`none` for the empty tree) plus the cached level and count. -/
structure Tree where
  root : Option Link
  level : Nat
  count : Nat
deriving Repr, DecidableEq

/-- Modelled from the spec: `snapshot()` followed by persisting the sealed
root chain: returns the immutable `Tree` handle and the extended store. -/
def snapshotP (st : BuilderState κ ν) (store : Store) : Tree × Store :=
  match snapshotNode st with
  | none => (⟨none, 0, 0⟩, store)
  | some root =>
    (⟨some (nodeLink tt ck cv cσ s n root), nodeLevel root, nodeCount root⟩,
      persistTree tt ck cv cσ s n root store)

/-- Modelled from the spec: `iter_from` on a tree handle (full traversal
from offset 0). -/
def iterTree (fuel : Nat) (store : Store) (t : Tree) :
    List (Nat × κ × ν) × Option IterErr :=
  match t.root with
  | none => ([], none)
  | some l => iterLink ck cv cσ s n fuel store 0 l

/-! ### Persistence lemmas -/

theorem persistTree_le (nd : Node κ ν) :
    ∀ st : Store, StoreLe st (persistTree tt ck cv cσ s n nd st) := by
  induction nd using Node.indOn with
  | leaf es =>
    intro st
    simp only [persistTree]
    exact storePut_le _ _
  | branch l c cs ih =>
    intro st
    simp only [persistTree]
    refine storeLe_trans ?_ (storePut_le _ _)
    have aux : ∀ xs : List (Node κ ν),
        (∀ y ∈ xs, ∀ st : Store, StoreLe st (persistTree tt ck cv cσ s n y st)) →
        ∀ st : Store, StoreLe st (persistForest tt ck cv cσ s n xs st) := by
      intro xs
      induction xs with
      | nil => intro _ st; exact storeLe_refl st
      | cons x xs2 ihx =>
        intro hx st
        simp only [persistForest]
        exact storeLe_trans (hx x (List.mem_cons_self _ _) st)
          (ihx (fun y hy => hx y (List.mem_cons_of_mem _ hy)) _)
    exact aux cs ih st

theorem persistForest_le (cs : List (Node κ ν)) :
    ∀ st : Store, StoreLe st (persistForest tt ck cv cσ s n cs st) := by
  induction cs with
  | nil => intro st; exact storeLe_refl st
  | cons c cs ih =>
    intro st
    simp only [persistForest]
    exact storeLe_trans (persistTree_le tt ck cv cσ s n c st) (ih _)

theorem persistTree_wfStore (nd : Node κ ν) :
    ∀ st : Store, wfStoreB st = true →
      wfStoreB (persistTree tt ck cv cσ s n nd st) = true := by
  induction nd using Node.indOn with
  | leaf es =>
    intro st h
    simp only [persistTree]
    exact storePut_wf h _
  | branch l c cs ih =>
    intro st h
    simp only [persistTree]
    refine storePut_wf ?_ _
    have aux : ∀ xs : List (Node κ ν),
        (∀ y ∈ xs, ∀ st : Store, wfStoreB st = true →
          wfStoreB (persistTree tt ck cv cσ s n y st) = true) →
        ∀ st : Store, wfStoreB st = true →
          wfStoreB (persistForest tt ck cv cσ s n xs st) = true := by
      intro xs
      induction xs with
      | nil => intro _ st hst; exact hst
      | cons x xs2 ihx =>
        intro hx st hst
        simp only [persistForest]
        exact ihx (fun y hy => hx y (List.mem_cons_of_mem _ hy)) _
          (hx x (List.mem_cons_self _ _) st hst)
    exact aux cs ih st h

theorem persistForest_wfStore (cs : List (Node κ ν)) :
    ∀ st : Store, wfStoreB st = true →
      wfStoreB (persistForest tt ck cv cσ s n cs st) = true := by
  induction cs with
  | nil => intro st h; exact h
  | cons c cs ih =>
    intro st h
    simp only [persistForest]
    exact ih _ (persistTree_wfStore tt ck cv cσ s n c st h)

theorem persistedIn_mono {st st' : Store} (hle : StoreLe st st') (nd : Node κ ν)
    (h : persistedIn tt ck cv cσ s n st nd = true) :
    persistedIn tt ck cv cσ s n st' nd = true := by
  induction nd using Node.indOn with
  | leaf es =>
    simp only [persistedIn, decide_eq_true_eq] at h ⊢
    exact hle _ _ h
  | branch l c cs ih =>
    simp only [persistedIn, Bool.and_eq_true, decide_eq_true_eq] at h ⊢
    refine ⟨hle _ _ h.1, ?_⟩
    have aux : ∀ xs : List (Node κ ν),
        (∀ y ∈ xs, persistedIn tt ck cv cσ s n st y = true →
          persistedIn tt ck cv cσ s n st' y = true) →
        persistedForest tt ck cv cσ s n st xs = true →
        persistedForest tt ck cv cσ s n st' xs = true := by
      intro xs
      induction xs with
      | nil => intro _ h2; exact h2
      | cons x xs2 ihx =>
        intro hx h2
        simp only [persistedForest, Bool.and_eq_true] at h2 ⊢
        exact ⟨hx x (List.mem_cons_self _ _) h2.1,
          ihx (fun y hy => hx y (List.mem_cons_of_mem _ hy)) h2.2⟩
    exact aux cs ih h.2

theorem persistedForest_mono {st st' : Store} (hle : StoreLe st st') (cs : List (Node κ ν))
    (h : persistedForest tt ck cv cσ s n st cs = true) :
    persistedForest tt ck cv cσ s n st' cs = true := by
  induction cs with
  | nil => exact h
  | cons c cs ih =>
    simp only [persistedForest, Bool.and_eq_true] at h ⊢
    exact ⟨persistedIn_mono tt ck cv cσ s n hle c h.1, ih h.2⟩

theorem persistedIn_after (nd : Node κ ν) :
    ∀ st : Store, wfStoreB st = true →
      persistedIn tt ck cv cσ s n (persistTree tt ck cv cσ s n nd st) nd = true := by
  induction nd using Node.indOn with
  | leaf es =>
    intro st h
    have hget := storePut_get h (nodeBytes tt ck cv cσ s n (.leaf es))
    simp only [persistTree, persistedIn, decide_eq_true_eq, nodeLink_eq_digest]
    exact hget
  | branch l c cs ih =>
    intro st h
    simp only [persistTree, persistedIn, Bool.and_eq_true, decide_eq_true_eq]
    constructor
    · rw [nodeLink_eq_digest]
      exact storePut_get (persistForest_wfStore tt ck cv cσ s n cs st h) _
    · have haux : ∀ xs : List (Node κ ν),
          (∀ y ∈ xs, ∀ st : Store, wfStoreB st = true →
            persistedIn tt ck cv cσ s n (persistTree tt ck cv cσ s n y st) y = true) →
          ∀ st : Store, wfStoreB st = true →
            persistedForest tt ck cv cσ s n (persistForest tt ck cv cσ s n xs st) xs = true := by
        intro xs
        induction xs with
        | nil => intro _ st _; rfl
        | cons x xs2 ihx =>
          intro hx st hst
          simp only [persistForest, persistedForest, Bool.and_eq_true]
          constructor
          · exact persistedIn_mono tt ck cv cσ s n
              (persistForest_le tt ck cv cσ s n xs2 _) x
              (hx x (List.mem_cons_self _ _) st hst)
          · exact ihx (fun y hy => hx y (List.mem_cons_of_mem _ hy)) _
              (persistTree_wfStore tt ck cv cσ s n x st hst)
      exact persistedForest_mono tt ck cv cσ s n (storePut_le _ _) cs (haux cs ih st h)

/-- Persisting an already fully persisted subtree does not change the store
(content addressing: no duplicate entries are ever created). -/
theorem persistTree_of_persisted (nd : Node κ ν) :
    ∀ st : Store, persistedIn tt ck cv cσ s n st nd = true →
      persistTree tt ck cv cσ s n nd st = st := by
  induction nd using Node.indOn with
  | leaf es =>
    intro st h
    simp only [persistedIn, decide_eq_true_eq, nodeLink_eq_digest] at h
    simp only [persistTree]
    rw [storePut_of_present (by simp [h])]
  | branch l c cs ih =>
    intro st h
    simp only [persistedIn, Bool.and_eq_true, decide_eq_true_eq, nodeLink_eq_digest] at h
    have haux : ∀ xs : List (Node κ ν),
        (∀ y ∈ xs, ∀ st : Store, persistedIn tt ck cv cσ s n st y = true →
          persistTree tt ck cv cσ s n y st = st) →
        ∀ st : Store, persistedForest tt ck cv cσ s n st xs = true →
          persistForest tt ck cv cσ s n xs st = st := by
      intro xs
      induction xs with
      | nil => intro _ st _; rfl
      | cons x xs2 ihx =>
        intro hx st hst
        simp only [persistedForest, Bool.and_eq_true] at hst
        simp only [persistForest]
        rw [hx x (List.mem_cons_self _ _) st hst.1]
        exact ihx (fun y hy => hx y (List.mem_cons_of_mem _ hy)) st hst.2
    simp only [persistTree]
    rw [haux cs ih st h.2, storePut_of_present (by simp [h.1])]

/-- Reading back a persisted well-formed subtree yields exactly its entries,
with offsets from the base, and no error. -/
theorem iterLink_correct (nd : Node κ ν) :
    ∀ (fuel : Nat) (store : Store) (ofs : Nat), wfNode nd = true →
      persistedIn tt ck cv cσ s n store nd = true →
      nodeLevel nd < fuel →
      iterLink ck cv cσ s n fuel store ofs (nodeLink tt ck cv cσ s n nd) =
        (enumFrom ofs (flatten nd), none) := by
  induction nd using Node.indOn with
  | leaf es =>
    intro fuel store ofs hwf hp hf
    cases fuel with
    | zero => simp [nodeLevel] at hf
    | succ f =>
      simp only [persistedIn, decide_eq_true_eq] at hp
      simp only [iterLink, loadBlock, hp]
      have hb : nodeBytes tt ck cv cσ s n (Node.leaf es) =
          encrypt s n (encodeBlock ck cv cσ (Block.leafB es)) := rfl
      rw [hb]
      simp only [decrypt_encrypt, decodeBlock_encodeBlock, flatten]
  | branch l c cs ih =>
    intro fuel store ofs hwf hp hf
    cases fuel with
    | zero => simp [nodeLevel] at hf
    | succ f =>
      simp only [persistedIn, Bool.and_eq_true, decide_eq_true_eq] at hp
      obtain ⟨hown, hchil⟩ := hp
      simp only [wfNode, Bool.and_eq_true, decide_eq_true_eq] at hwf
      have hcs := wfChildren_iff.mp hwf.2
      have hlev : nodeLevel (Node.branch l c cs) = l := rfl
      rw [hlev] at hf
      simp only [iterLink, loadBlock, hown]
      have hb : nodeBytes tt ck cv cσ s n (Node.branch l c cs) =
          encrypt s n (encodeBlock ck cv cσ
            (Block.branchB l (childRefs tt ck cv cσ s n cs))) := rfl
      rw [hb]
      simp only [decrypt_encrypt, decodeBlock_encodeBlock, flatten_branch]
      have aux : ∀ xs : List (Node κ ν), (∀ y ∈ xs, y ∈ cs) → ∀ o : Nat,
          persistedForest tt ck cv cσ s n store xs = true →
          iterChildren ck cv cσ s n f store o (childRefs tt ck cv cσ s n xs) =
            (enumFrom o (flattenList xs), none) := by
        intro xs
        induction xs with
        | nil =>
          intro _ o _
          simp [childRefs, iterChildren, flattenList, enumFrom]
        | cons x xs2 ihx =>
          intro hsub o hpf
          simp only [persistedForest, Bool.and_eq_true] at hpf
          have hx := hcs x (hsub x (List.mem_cons_self _ _))
          simp only [childRefs, iterChildren]
          rw [ih x (hsub x (List.mem_cons_self _ _)) f store o hx.2 hpf.1 (by omega)]
          rw [ihx (fun y hy => hsub y (List.mem_cons_of_mem _ hy)) (o + nodeCount x) hpf.2]
          rw [wf_count hx.2]
          simp only [flattenList, enumFrom_append]
      exact aux cs (fun y hy => hy) ofs hchil

theorem isPrefixOfAppendLeft {l₁ l₂ xs : List α} (h : l₁ <+: l₂) :
    xs ++ l₁ <+: xs ++ l₂ := by
  rcases h with ⟨t, rfl⟩
  exact ⟨t, by simp⟩

/-- Traversal over a degraded store (any store that can only have lost
blocks relative to one holding the whole tree): the yielded items are always
a prefix of the full traversal, and if no error is reported they are the
full traversal. -/
theorem iterLink_prefix (nd : Node κ ν) :
    ∀ (fuel : Nat) (store store' : Store) (ofs : Nat), wfNode nd = true →
      persistedIn tt ck cv cσ s n store nd = true →
      nodeLevel nd < fuel →
      StoreLe store' store →
      ((iterLink ck cv cσ s n fuel store' ofs (nodeLink tt ck cv cσ s n nd)).1 <+:
        enumFrom ofs (flatten nd)) ∧
      ((iterLink ck cv cσ s n fuel store' ofs (nodeLink tt ck cv cσ s n nd)).2 = none →
        (iterLink ck cv cσ s n fuel store' ofs (nodeLink tt ck cv cσ s n nd)).1 =
          enumFrom ofs (flatten nd)) := by
  induction nd using Node.indOn with
  | leaf es =>
    intro fuel store store' ofs hwf hp hf hle
    cases fuel with
    | zero => simp [nodeLevel] at hf
    | succ f =>
      simp only [persistedIn, decide_eq_true_eq] at hp
      cases hsg : storeGet store' (nodeLink tt ck cv cσ s n (Node.leaf es)) with
      | none =>
        simp only [iterLink, loadBlock, hsg]
        exact ⟨⟨_, rfl⟩, by intro h; cases h⟩
      | some b =>
        have hbe : b = nodeBytes tt ck cv cσ s n (Node.leaf es) :=
          Option.some.inj ((hle _ _ hsg).symm.trans hp)
        subst hbe
        simp only [iterLink, loadBlock, hsg]
        have hb : nodeBytes tt ck cv cσ s n (Node.leaf es) =
            encrypt s n (encodeBlock ck cv cσ (Block.leafB es)) := rfl
        rw [hb]
        simp only [decrypt_encrypt, decodeBlock_encodeBlock, flatten]
        exact ⟨⟨[], by simp⟩, fun _ => by trivial⟩
  | branch l c cs ih =>
    intro fuel store store' ofs hwf hp hf hle
    cases fuel with
    | zero => simp [nodeLevel] at hf
    | succ f =>
      simp only [persistedIn, Bool.and_eq_true, decide_eq_true_eq] at hp
      obtain ⟨hown, hchil⟩ := hp
      simp only [wfNode, Bool.and_eq_true, decide_eq_true_eq] at hwf
      have hcs := wfChildren_iff.mp hwf.2
      have hlev : nodeLevel (Node.branch l c cs) = l := rfl
      rw [hlev] at hf
      cases hsg : storeGet store' (nodeLink tt ck cv cσ s n (Node.branch l c cs)) with
      | none =>
        simp only [iterLink, loadBlock, hsg]
        exact ⟨⟨_, rfl⟩, by intro h; cases h⟩
      | some b =>
        have hbe : b = nodeBytes tt ck cv cσ s n (Node.branch l c cs) :=
          Option.some.inj ((hle _ _ hsg).symm.trans hown)
        subst hbe
        simp only [iterLink, loadBlock, hsg]
        have hb : nodeBytes tt ck cv cσ s n (Node.branch l c cs) =
            encrypt s n (encodeBlock ck cv cσ
              (Block.branchB l (childRefs tt ck cv cσ s n cs))) := rfl
        rw [hb]
        simp only [decrypt_encrypt, decodeBlock_encodeBlock, flatten_branch]
        have aux : ∀ xs : List (Node κ ν), (∀ y ∈ xs, y ∈ cs) → ∀ o : Nat,
            persistedForest tt ck cv cσ s n store xs = true →
            ((iterChildren ck cv cσ s n f store' o (childRefs tt ck cv cσ s n xs)).1 <+:
              enumFrom o (flattenList xs)) ∧
            ((iterChildren ck cv cσ s n f store' o (childRefs tt ck cv cσ s n xs)).2 = none →
              (iterChildren ck cv cσ s n f store' o (childRefs tt ck cv cσ s n xs)).1 =
                enumFrom o (flattenList xs)) := by
          intro xs
          induction xs with
          | nil =>
            intro _ o _
            simp only [childRefs, iterChildren, flattenList, enumFrom]
            exact ⟨⟨[], by simp⟩, fun _ => by trivial⟩
          | cons x xs2 ihx =>
            intro hsub o hpf
            simp only [persistedForest, Bool.and_eq_true] at hpf
            have hx := hcs x (hsub x (List.mem_cons_self _ _))
            have hxpre := ih x (hsub x (List.mem_cons_self _ _)) f store store' o hx.2
              hpf.1 (by omega) hle
            simp only [childRefs, iterChildren]
            rcases hr1 : iterLink ck cv cσ s n f store' o (nodeLink tt ck cv cσ s n x)
              with ⟨items, err⟩
            rw [hr1] at hxpre
            simp only at hxpre
            have hsplit : enumFrom o (flattenList (x :: xs2)) =
                enumFrom o (flatten x) ++ enumFrom (o + nodeCount x) (flattenList xs2) := by
              simp only [flattenList, enumFrom_append, wf_count hx.2]
            cases err with
            | some e =>
              simp only
              rw [hsplit]
              refine ⟨(hxpre.1).trans ⟨_, rfl⟩, ?_⟩
              intro h
              cases h
            | none =>
              have hitems : items = enumFrom o (flatten x) := hxpre.2 rfl
              subst hitems
              have hrest := ihx (fun y hy => hsub y (List.mem_cons_of_mem _ hy))
                (o + nodeCount x) hpf.2
              rcases hr2 : iterChildren ck cv cσ s n f store' (o + nodeCount x)
                (childRefs tt ck cv cσ s n xs2) with ⟨items2, err2⟩
              rw [hr2] at hrest
              simp only at hrest ⊢
              rw [hsplit]
              constructor
              · exact isPrefixOfAppendLeft hrest.1
              · intro h2
                rw [hrest.2 h2]
        exact aux cs (fun y hy => hy) ofs hchil

/-! ### Fallible stores and `Transaction::extend` failure atomicity -/

/-- Modelled from the spec: a block store whose writes can fail transiently
(`StoreFailure`).  `failsLeft = some k` makes the write after the next `k`
succeed ones fail once; `none` means writes always succeed. -/
structure FStore where
  store : Store
  failsLeft : Option Nat
deriving Repr

/-- Modelled from the spec: `put` against a possibly failing store — a
transient failure is propagated to the caller (the engine performs no
implicit retry) and consumes the pending failure; otherwise the
content-addressed write happens. -/
def fPut (fs : FStore) (b : Bytes) : Except FStore (Link × FStore) :=
  match fs.failsLeft with
  | some 0 => .error ⟨fs.store, none⟩
  | some (k + 1) => .ok ((storePut fs.store b).1, ⟨(storePut fs.store b).2, some k⟩)
  | none => .ok ((storePut fs.store b).1, ⟨(storePut fs.store b).2, none⟩)

/-- Modelled from the spec: insert an already persisted sealed node of level
`lvl` into the pending structure, folding full levels into branches, each
persisted as it is formed.  A failed branch persist aborts the fold at that
level: the children stay sealed at their level, nothing is lost. -/
def cascadeP (branchMax : Nat) : Nat → Node κ ν → List (List (Node κ ν)) → FStore →
    Except (List (List (Node κ ν)) × FStore) (List (List (Node κ ν)) × FStore)
  | _, nd, [], fs => .ok ([[nd]], fs)
  | lvl, nd, ns :: rest, fs =>
    let grown := ns ++ [nd]
    if branchMax ≤ grown.length then
      match fPut fs (nodeBytes tt ck cv cσ s n (mkBranch (lvl + 1) grown)) with
      | .error fs' => .error (grown :: rest, fs')
      | .ok (_, fs') =>
        match cascadeP branchMax (lvl + 1) (mkBranch (lvl + 1) grown) rest fs' with
        | .ok (rest', fs'') => .ok ([] :: rest', fs'')
        | .error (rest', fs'') => .error ([] :: rest', fs'')
    else .ok (grown :: rest, fs)

/-- Modelled from the spec: push one entry through the persisting builder:
the buffer grows; at the leaf threshold the leaf is persisted and cascaded.
If persisting the leaf fails, the entries stay in the buffer (unsealed
remainder preserved). -/
def pushEntryP (cfg : Config) (e : κ × ν) (st : BuilderState κ ν) (fs : FStore) :
    Except (BuilderState κ ν × FStore) (BuilderState κ ν × FStore) :=
  let buf := st.buffer ++ [e]
  if cfg.leafMax ≤ buf.length then
    match fPut fs (nodeBytes tt ck cv cσ s n (.leaf buf)) with
    | .error fs' => .error (⟨buf, st.pending⟩, fs')
    | .ok (_, fs') =>
      match cascadeP tt ck cv cσ s n cfg.branchMax 0 (.leaf buf) st.pending fs' with
      | .ok (p', fs'') => .ok (⟨[], p'⟩, fs'')
      | .error (p', fs'') => .error (⟨[], p'⟩, fs'')
  else .ok (⟨buf, st.pending⟩, fs)

/-- Modelled from the spec: `Transaction::extend` against a fallible store.
On a store failure the error carries the builder in a well-defined
pre-failure state: already sealed and persisted nodes remain, and the
unsealed remainder (including the unconsumed input) is preserved in the
builder, so the caller can retry. -/
def extendP (cfg : Config) : List (κ × ν) → BuilderState κ ν → FStore →
    Except (BuilderState κ ν × FStore) (BuilderState κ ν × FStore)
  | [], st, fs => .ok (st, fs)
  | e :: es, st, fs =>
    match pushEntryP tt ck cv cσ s n cfg e st fs with
    | .ok (st', fs') => extendP cfg es st' fs'
    | .error (st', fs') => .error (⟨st'.buffer ++ es, st'.pending⟩, fs')

theorem fPut_ok_le {fs : FStore} {b : Bytes} {l : Link} {fs' : FStore}
    (h : fPut fs b = .ok (l, fs')) : StoreLe fs.store fs'.store := by
  unfold fPut at h
  split at h
  · cases h
  · cases h
    exact storePut_le _ _
  · cases h
    exact storePut_le _ _

theorem fPut_error_store {fs : FStore} {b : Bytes} {fs' : FStore}
    (h : fPut fs b = .error fs') : fs'.store = fs.store := by
  unfold fPut at h
  split at h
  · cases h
    rfl
  · cases h
  · cases h

theorem cascadeP_spec (branchMax : Nat) (p : List (List (Node κ ν))) :
    ∀ (lvl : Nat) (nd : Node κ ν) (fs : FStore),
      (∀ p' fs', cascadeP tt ck cv cσ s n branchMax lvl nd p fs = .ok (p', fs') →
        pendingFlatten p' = pendingFlatten p ++ flatten nd ∧ StoreLe fs.store fs'.store) ∧
      (∀ p' fs', cascadeP tt ck cv cσ s n branchMax lvl nd p fs = .error (p', fs') →
        pendingFlatten p' = pendingFlatten p ++ flatten nd ∧ StoreLe fs.store fs'.store) := by
  induction p with
  | nil =>
    intro lvl nd fs
    constructor
    · intro p' fs' h
      simp only [cascadeP] at h
      cases h
      exact ⟨by simp [pendingFlatten, levelFlatten, flattenList], storeLe_refl _⟩
    · intro p' fs' h
      simp only [cascadeP] at h
      cases h
  | cons ns rest ih =>
    intro lvl nd fs
    have hgrown : pendingFlatten ((ns ++ [nd]) :: rest) =
        pendingFlatten (ns :: rest) ++ flatten nd := by
      simp [pendingFlatten, levelFlatten, flattenList_append, flattenList, List.append_assoc]
    have hbfl : flatten (mkBranch (lvl + 1) (ns ++ [nd])) = levelFlatten ns ++ flatten nd := by
      simp [mkBranch, flatten_branch, levelFlatten, flattenList_append, flattenList]
    constructor
    · intro p' fs' h
      simp only [cascadeP] at h
      split at h
      · split at h
        · cases h
        · rename_i l1 fs1 hput
          split at h
          · rename_i rest' fs'' hrec
            cases h
            have hok := (ih (lvl + 1) (mkBranch (lvl + 1) (ns ++ [nd])) fs1).1 _ _ hrec
            refine ⟨?_, storeLe_trans (fPut_ok_le hput) hok.2⟩
            simp only [pendingFlatten, levelFlatten, flattenList, List.append_nil, hok.1, hbfl]
            simp [pendingFlatten, levelFlatten, List.append_assoc]
          · rename_i rest' fs'' hrec
            cases h
      · cases h
        exact ⟨hgrown, storeLe_refl _⟩
    · intro p' fs' h
      simp only [cascadeP] at h
      split at h
      · split at h
        · rename_i fse hput
          cases h
          refine ⟨hgrown, ?_⟩
          rw [fPut_error_store hput]
          exact storeLe_refl _
        · rename_i l1 fs1 hput
          split at h
          · rename_i rest' fs'' hrec
            cases h
          · rename_i rest' fs'' hrec
            cases h
            have herr := (ih (lvl + 1) (mkBranch (lvl + 1) (ns ++ [nd])) fs1).2 _ _ hrec
            refine ⟨?_, storeLe_trans (fPut_ok_le hput) herr.2⟩
            simp only [pendingFlatten, levelFlatten, flattenList, List.append_nil, herr.1, hbfl]
            simp [pendingFlatten, levelFlatten, List.append_assoc]
      · cases h

theorem pushEntryP_spec (cfg : Config) (e : κ × ν) (st : BuilderState κ ν) (fs : FStore) :
    (∀ st' fs', pushEntryP tt ck cv cσ s n cfg e st fs = .ok (st', fs') →
      flattenState st' = flattenState st ++ [e] ∧ StoreLe fs.store fs'.store) ∧
    (∀ st' fs', pushEntryP tt ck cv cσ s n cfg e st fs = .error (st', fs') →
      flattenState st' = flattenState st ++ [e] ∧ StoreLe fs.store fs'.store) := by
  constructor
  · intro st' fs' h
    simp only [pushEntryP] at h
    split at h
    · split at h
      · cases h
      · rename_i l1 fs1 hput
        split at h
        · rename_i p' fs'' hrec
          cases h
          have hok := (cascadeP_spec tt ck cv cσ s n cfg.branchMax st.pending 0
            (Node.leaf (st.buffer ++ [e])) fs1).1 _ _ hrec
          refine ⟨?_, storeLe_trans (fPut_ok_le hput) hok.2⟩
          simp only [flattenState, hok.1, List.append_nil]
          simp [flatten, List.append_assoc]
        · rename_i p' fs'' hrec
          cases h
    · cases h
      exact ⟨by simp [flattenState, List.append_assoc], storeLe_refl _⟩
  · intro st' fs' h
    simp only [pushEntryP] at h
    split at h
    · split at h
      · rename_i fse hput
        cases h
        refine ⟨by simp [flattenState, List.append_assoc], ?_⟩
        rw [fPut_error_store hput]
        exact storeLe_refl _
      · rename_i l1 fs1 hput
        split at h
        · rename_i p' fs'' hrec
          cases h
        · rename_i p' fs'' hrec
          cases h
          have herr := (cascadeP_spec tt ck cv cσ s n cfg.branchMax st.pending 0
            (Node.leaf (st.buffer ++ [e])) fs1).2 _ _ hrec
          refine ⟨?_, storeLe_trans (fPut_ok_le hput) herr.2⟩
          simp only [flattenState, herr.1, List.append_nil]
          simp [flatten, List.append_assoc]
    · cases h

theorem extendP_spec (cfg : Config) (es : List (κ × ν)) :
    ∀ (st : BuilderState κ ν) (fs : FStore),
      (∀ st' fs', extendP tt ck cv cσ s n cfg es st fs = .ok (st', fs') →
        flattenState st' = flattenState st ++ es ∧ StoreLe fs.store fs'.store) ∧
      (∀ st' fs', extendP tt ck cv cσ s n cfg es st fs = .error (st', fs') →
        flattenState st' = flattenState st ++ es ∧ StoreLe fs.store fs'.store) := by
  induction es with
  | nil =>
    intro st fs
    constructor
    · intro st' fs' h
      simp only [extendP] at h
      cases h
      exact ⟨by simp, storeLe_refl _⟩
    · intro st' fs' h
      simp only [extendP] at h
      cases h
  | cons e es ih =>
    intro st fs
    constructor
    · intro st' fs' h
      simp only [extendP] at h
      split at h
      · rename_i st1 fs1 hp
        have hpe := (pushEntryP_spec tt ck cv cσ s n cfg e st fs).1 _ _ hp
        have hex := (ih st1 fs1).1 _ _ h
        refine ⟨?_, storeLe_trans hpe.2 hex.2⟩
        rw [hex.1, hpe.1, List.append_assoc]
        rfl
      · rename_i st1 fs1 hp
        cases h
    · intro st' fs' h
      simp only [extendP] at h
      split at h
      · rename_i st1 fs1 hp
        have hpe := (pushEntryP_spec tt ck cv cσ s n cfg e st fs).1 _ _ hp
        have hex := (ih st1 fs1).2 _ _ h
        refine ⟨?_, storeLe_trans hpe.2 hex.2⟩
        rw [hex.1, hpe.1, List.append_assoc]
        rfl
      · rename_i st1 fs1 hp
        cases h
        have hpe := (pushEntryP_spec tt ck cv cσ s n cfg e st fs).2 _ _ hp
        refine ⟨?_, hpe.2⟩
        have hh : flattenState (⟨st1.buffer ++ es, st1.pending⟩ : BuilderState κ ν) =
            flattenState st1 ++ es := by
          simp [flattenState, List.append_assoc]
        rw [hh, hpe.1, List.append_assoc]
        rfl

theorem cascadeP_none_ok (branchMax : Nat) (p : List (List (Node κ ν))) :
    ∀ (lvl : Nat) (nd : Node κ ν) (σ₀ : Store), ∃ p' σ',
      cascadeP tt ck cv cσ s n branchMax lvl nd p ⟨σ₀, none⟩ = .ok (p', ⟨σ', none⟩) := by
  induction p with
  | nil => intro lvl nd σ₀; exact ⟨[[nd]], σ₀, rfl⟩
  | cons ns rest ih =>
    intro lvl nd σ₀
    simp only [cascadeP]
    split
    · obtain ⟨p', σ', hp⟩ := ih (lvl + 1) (mkBranch (lvl + 1) (ns ++ [nd]))
        ((storePut σ₀ (nodeBytes tt ck cv cσ s n (mkBranch (lvl + 1) (ns ++ [nd])))).2)
      refine ⟨[] :: p', σ', ?_⟩
      simp only [fPut]
      rw [hp]
    · exact ⟨(ns ++ [nd]) :: rest, σ₀, rfl⟩

theorem pushEntryP_none_ok (cfg : Config) (e : κ × ν) (st : BuilderState κ ν) (σ₀ : Store) :
    ∃ st' σ', pushEntryP tt ck cv cσ s n cfg e st ⟨σ₀, none⟩ = .ok (st', ⟨σ', none⟩) := by
  simp only [pushEntryP]
  split
  · obtain ⟨p', σ', hp⟩ := cascadeP_none_ok tt ck cv cσ s n cfg.branchMax st.pending 0
      (Node.leaf (st.buffer ++ [e]))
      ((storePut σ₀ (nodeBytes tt ck cv cσ s n (Node.leaf (st.buffer ++ [e])))).2)
    refine ⟨⟨[], p'⟩, σ', ?_⟩
    simp only [fPut]
    rw [hp]
  · exact ⟨⟨st.buffer ++ [e], st.pending⟩, σ₀, rfl⟩

theorem extendP_none_ok (cfg : Config) (es : List (κ × ν)) :
    ∀ (st : BuilderState κ ν) (σ₀ : Store), ∃ st' σ',
      extendP tt ck cv cσ s n cfg es st ⟨σ₀, none⟩ = .ok (st', ⟨σ', none⟩) := by
  induction es with
  | nil => intro st σ₀; exact ⟨st, σ₀, rfl⟩
  | cons e es ih =>
    intro st σ₀
    obtain ⟨st1, σ1, h1⟩ := pushEntryP_none_ok tt ck cv cσ s n cfg e st σ₀
    obtain ⟨st2, σ2, h2⟩ := ih st1 σ1
    refine ⟨st2, σ2, ?_⟩
    simp only [extendP]
    rw [h1]
    exact h2

end Persist

/-! ## `RangeQuery` from `custom_index_example` (src/src/main.rs) -/

/-- From the source: the summary type of `IndexTT` — an inclusive key range
(`KeyRange { min, max }`, both bounds documented `/// inclusive`). -/
structure KeyRange where
  min : Nat
  max : Nat
deriving Repr, DecidableEq

/-- From the source: `RangeQuery { min, max }`, both bounds documented
`/// inclusive`. -/
structure RangeQuery where
  min : Nat
  max : Nat
deriving Repr, DecidableEq

/-- From the source, `RangeQuery::containing`:
`res[i] = *key >= self.min && *key <= self.max`. -/
def RangeQuery.containing (q : RangeQuery) (_ofs : Nat) (keys : List Nat) : List Bool :=
  keys.map fun k => decide (k ≥ q.min) && decide (k ≤ q.max)

/-- From the source, `RangeQuery::intersecting`:
`res[i] = !(summary.min > self.max || summary.max < self.min)`. -/
def RangeQuery.intersecting (q : RangeQuery) (_ofs : Nat) (summaries : List KeyRange) :
    List Bool :=
  summaries.map fun sm => !(decide (sm.min > q.max) || decide (sm.max < q.min))

/-! ## Remaining helper lemmas for the claim theorems -/

theorem pendingWF_mem {lvl : Nat} {p : List (List (Node κ ν))} (hp : pendingWF lvl p)
    {ns : List (Node κ ν)} (hns : ns ∈ p) {nd : Node κ ν} (hnd : nd ∈ ns) :
    wfNode nd = true := by
  induction p generalizing lvl with
  | nil => cases hns
  | cons hd tl ih =>
    rcases List.mem_cons.mp hns with rfl | hns
    · exact (hp.1 nd hnd).1
    · exact ih hp.2 hns

/-- In a well-formed node, every sub-branch has all children exactly one
level below it. -/
theorem wf_branch_children {nd : Node κ ν} (h : wfNode nd = true)
    {l k : Nat} {cs : List (Node κ ν)} (hs : Subnode (.branch l k cs) nd) :
    ∀ c ∈ cs, nodeLevel c + 1 = l := by
  have hb := wf_subnode hs h
  simp only [wfNode, Bool.and_eq_true, decide_eq_true_eq] at hb
  intro c hc
  exact ((wfChildren_iff.mp hb.2) c hc).1

section PersistHelpers

variable {κ ν σ : Type}
variable (tt : SummaryFn κ σ) (ck : Codec κ) (cv : Codec ν) (cσ : Codec σ)
variable (s : Secrets) (n : NonceT)

theorem persistedIn_own_get {store : Store} {nd : Node κ ν}
    (h : persistedIn tt ck cv cσ s n store nd = true) :
    storeGet store (nodeLink tt ck cv cσ s n nd) =
      some (nodeBytes tt ck cv cσ s n nd) := by
  cases nd with
  | leaf es => simpa [persistedIn] using h
  | branch l c cs =>
    simp only [persistedIn, Bool.and_eq_true, decide_eq_true_eq] at h
    exact h.1

end PersistHelpers

/-! ## Claim theorems -/

/-- C1: for every finite sequence of `(Key, Value)` entries, building a tree
by calling `extend` with those entries and then `snapshot`, and then fully
traversing the snapshot with `iter_from`, yields exactly the original
entries, in their original order, paired with offsets `0` through `n-1`
(and no error). -/
theorem c1_extend_snapshot_iter_roundtrip {κ ν σ : Type} (cfg : Config)
    (tt : SummaryFn κ σ) (ck : Codec κ) (cv : Codec ν) (cσ : Codec σ)
    (s : Secrets) (n : NonceT) (entries : List (κ × ν)) :
    iterTree ck cv cσ s n
      ((snapshotP tt ck cv cσ s n (extend cfg initState entries) []).1.level + 1)
      (snapshotP tt ck cv cσ s n (extend cfg initState entries) []).2
      (snapshotP tt ck cv cσ s n (extend cfg initState entries) []).1 =
      (enumFrom 0 entries, none) := by
  have hflat : flattenState (extend cfg (initState (κ := κ) (ν := ν)) entries) = entries := by
    rw [extend_flatten]
    rfl
  have hwfp : pendingWF 0 (extend cfg (initState (κ := κ) (ν := ν)) entries).pending :=
    extend_wf trivial
  cases hroot : snapshotNode (extend cfg (initState (κ := κ) (ν := ν)) entries) with
  | none =>
    have h0 : entries = [] := by
      rw [← hflat, ← snapshotNode_flatten, hroot]
      rfl
    subst h0
    simp [snapshotP, hroot, iterTree, enumFrom]
  | some root =>
    have hwf : wfNode root = true := snapshotNode_wf hwfp root hroot
    have hfr : flatten root = entries := by
      rw [← hflat, ← snapshotNode_flatten, hroot]
      rfl
    simp only [snapshotP, hroot, iterTree]
    rw [iterLink_correct tt ck cv cσ s n root (nodeLevel root + 1)
      (persistTree tt ck cv cσ s n root []) 0 hwf
      (persistedIn_after tt ck cv cσ s n root [] rfl) (by omega), hfr]

theorem getElem?_some_lt {l : List α} {i : Nat} {a : α} (h : l[i]? = some a) :
    i < l.length := by
  induction l generalizing i with
  | nil => simp at h
  | cons x xs ih =>
    cases i with
    | zero => simp
    | succ j =>
      simp only [List.getElem?_cons_succ] at h
      have := ih h
      simp only [List.length_cons]
      omega

theorem map_getElem? (f : α → β) (l : List α) (i : Nat) :
    (l.map f)[i]? = Option.map f l[i]? := by
  induction l generalizing i with
  | nil => simp
  | cons x xs ih =>
    cases i with
    | zero => simp
    | succ j =>
      simp only [List.map_cons, List.getElem?_cons_succ]
      exact ih j

/-- Trivial summaries (no indexing), as in `sequence_example`'s unit keys. -/
def trivialSummary : SummaryFn Nat Unit := ⟨fun _ => (), fun _ => ()⟩

/-- The query that keeps everything (a sound over-approximation). -/
def trivialQuery : QueryFn Nat Unit :=
  ⟨fun ofs keys => (enumFrom ofs keys).map (fun _ => true),
   fun _ sums => sums.map (fun _ => true)⟩

/-- C2: for every Query whose `intersecting` method is a sound
over-approximation (it never flags `false` a child subtree that contains a
qualifying entry), every tree, and every entry: an entry appears in the
output of `iter_filtered` iff the query's leaf-level predicate holds for it
— `iter_filtered` equals filtering `iter_from`'s output by the predicate,
with no false positives and no false negatives. -/
theorem c2_pruning_soundness {κ ν σ : Type} (tt : SummaryFn κ σ) (q : QueryFn κ σ)
    (p : Nat → κ → Bool)
    (hcont : ∀ ofs keys, q.containing ofs keys =
      (enumFrom ofs keys).map (fun ik => p ik.1 ik.2))
    (hlen : ∀ ofs sums, (q.intersecting ofs sums).length = sums.length)
    (hsound : ∀ ofs (cs : List (Node κ ν)) i c, cs[i]? = some c →
      (∃ it ∈ iterFromNode (ofs + sumCounts (cs.take i)) c, p it.1 it.2.1 = true) →
      (q.intersecting ofs (cs.map (nodeSummary tt)))[i]? = some true)
    {nd : Node κ ν} (h : wfNode nd = true) (ofs : Nat) :
    iterFilteredNode tt q ofs nd = (iterFromNode ofs nd).filter (fun it => p it.1 it.2.1) ∧
    ∀ it, (it ∈ iterFilteredNode tt q ofs nd ↔
      it ∈ iterFromNode ofs nd ∧ p it.1 it.2.1 = true) := by
  have heq := iterFiltered_eq_filter tt q p hcont hlen hsound h ofs
  refine ⟨heq, fun it => ?_⟩
  rw [heq, List.mem_filter]

/-- Witness for C2: the keep-everything query on a concrete two-leaf tree. -/
theorem c2_pruning_soundness_witness :
    iterFilteredNode trivialSummary trivialQuery 0
        (Node.branch 1 2 [Node.leaf [(1, 10)], Node.leaf [(2, 20)]]) =
      (iterFromNode 0 (Node.branch 1 2
        [Node.leaf [(1, 10)], Node.leaf [(2, 20)]])).filter
          (fun it => (fun (_ : Nat) (_ : Nat) => true) it.1 it.2.1) :=
  (c2_pruning_soundness trivialSummary trivialQuery (fun _ _ => true)
    (fun _ _ => by simp [trivialQuery])
    (fun _ sums => by simp [trivialQuery])
    (fun ofs cs i c hc _ => by
      simp only [trivialQuery]
      rw [map_getElem?, map_getElem?, hc]
      rfl)
    (by decide) 0).1

/-- C3: for every node and every Tree produced by any sequence of `extend`
and `snapshot` calls, the cached `count` field equals the number of leaf
entries contained in that node's or tree's subtree. -/
theorem c3_count_invariant {κ ν σ : Type} (cfg : Config) (tt : SummaryFn κ σ)
    (ck : Codec κ) (cv : Codec ν) (cσ : Codec σ) (s : Secrets) (n : NonceT)
    (ess : List (List (κ × ν))) (store : Store) :
    (∀ ns ∈ (ess.foldl (extend cfg) (initState : BuilderState κ ν)).pending, ∀ nd ∈ ns,
      ∀ sub, Subnode sub nd → nodeCount sub = (flatten sub).length) ∧
    (∀ root, snapshotNode (ess.foldl (extend cfg) (initState : BuilderState κ ν)) =
        some root → ∀ sub, Subnode sub root → nodeCount sub = (flatten sub).length) ∧
    (snapshotP tt ck cv cσ s n (ess.foldl (extend cfg) (initState : BuilderState κ ν))
        store).1.count = (ess.foldl (· ++ ·) []).length := by
  have hwfp := extends_wf cfg ess (κ := κ) (ν := ν)
  refine ⟨?_, ?_, ?_⟩
  · intro ns hns nd hnd sub hsub
    exact wf_count (wf_subnode hsub (pendingWF_mem hwfp hns hnd))
  · intro root hroot sub hsub
    exact wf_count (wf_subnode hsub (snapshotNode_wf hwfp root hroot))
  · have hflat := extends_flatten cfg ess (κ := κ) (ν := ν)
    cases hroot : snapshotNode (ess.foldl (extend cfg) (initState : BuilderState κ ν)) with
    | none =>
      simp only [snapshotP, hroot]
      have h0 : flattenState (ess.foldl (extend cfg) (initState : BuilderState κ ν)) = [] := by
        rw [← snapshotNode_flatten, hroot]
        rfl
      rw [← hflat, h0]
      rfl
    | some root =>
      simp only [snapshotP, hroot]
      have hc := wf_count (snapshotNode_wf hwfp root hroot)
      have hfr : flatten root =
          flattenState (ess.foldl (extend cfg) (initState : BuilderState κ ν)) := by
        rw [← snapshotNode_flatten, hroot]
        rfl
      rw [hc, hfr, hflat]

/-- Witness for C3: the count of a concretely built snapshot root. -/
theorem c3_count_invariant_witness :
    nodeCount (Node.leaf [((5:Nat), (7:Nat))]) =
      (flatten (Node.leaf [((5:Nat), (7:Nat))])).length :=
  (c3_count_invariant ⟨1, 2⟩ trivialSummary natCodec natCodec unitCodec [] []
    [[(5, 7)]] []).2.1 (Node.leaf [(5, 7)]) rfl (Node.leaf [(5, 7)]) (Subnode.refl _)

/-- C4: in every tree produced by the builder, every non-empty branch node
has children that all share the same level, and the branch's level is
exactly one more than that common child level (leaves are level 0). -/
theorem c4_balance_invariant {κ ν : Type} (cfg : Config) (ess : List (List (κ × ν))) :
    (∀ ns ∈ (ess.foldl (extend cfg) (initState : BuilderState κ ν)).pending, ∀ nd ∈ ns,
      ∀ l k cs, Subnode (.branch l k cs) nd → ∀ c ∈ cs, nodeLevel c + 1 = l) ∧
    (∀ root, snapshotNode (ess.foldl (extend cfg) (initState : BuilderState κ ν)) =
        some root → ∀ l k cs, Subnode (.branch l k cs) root →
          ∀ c ∈ cs, nodeLevel c + 1 = l) := by
  have hwfp := extends_wf cfg ess (κ := κ) (ν := ν)
  constructor
  · intro ns hns nd hnd l k cs hsub
    exact wf_branch_children (pendingWF_mem hwfp hns hnd) hsub
  · intro root hroot l k cs hsub
    exact wf_branch_children (snapshotNode_wf hwfp root hroot) hsub

/-- Witness for C4: a concretely built two-leaf branch is balanced. -/
theorem c4_balance_invariant_witness : nodeLevel (Node.leaf [((1:Nat), (1:Nat))]) + 1 = 1 :=
  (c4_balance_invariant ⟨1, 2⟩ [[(1, 1), (2, 2)]]).2
    (Node.branch 1 2 [Node.leaf [(1, 1)], Node.leaf [(2, 2)]]) rfl
    1 2 [Node.leaf [(1, 1)], Node.leaf [(2, 2)]] (Subnode.refl _)
    (Node.leaf [(1, 1)]) (List.mem_cons_self _ _)

/-- C5: if `Transaction::extend` fails due to an underlying store failure it
returns an error and leaves the builder in a well-defined pre-failure state:
every block persisted before the failure remains readable (the store only
grows), the builder retains every entry handed to `extend` (sealed nodes
stay sealed, the unsealed remainder stays buffered), and retrying from that
state against a working store succeeds with nothing lost.  A successful
`extend` likewise only grows the store and appends exactly the given
entries. -/
theorem c5_extend_failure_atomicity {κ ν σ : Type} (tt : SummaryFn κ σ) (ck : Codec κ)
    (cv : Codec ν) (cσ : Codec σ) (s : Secrets) (n : NonceT) (cfg : Config)
    (es : List (κ × ν)) (st : BuilderState κ ν) (fs : FStore) :
    (∀ st' fs', extendP tt ck cv cσ s n cfg es st fs = .ok (st', fs') →
      flattenState st' = flattenState st ++ es ∧ StoreLe fs.store fs'.store) ∧
    (∀ st' fs', extendP tt ck cv cσ s n cfg es st fs = .error (st', fs') →
      flattenState st' = flattenState st ++ es ∧ StoreLe fs.store fs'.store ∧
      ∀ more, ∃ st'' σ'', extendP tt ck cv cσ s n cfg more st' ⟨fs'.store, none⟩ =
        .ok (st'', ⟨σ'', none⟩) ∧ flattenState st'' = flattenState st ++ es ++ more) := by
  constructor
  · exact fun st' fs' h => (extendP_spec tt ck cv cσ s n cfg es st fs).1 st' fs' h
  · intro st' fs' h
    have he := (extendP_spec tt ck cv cσ s n cfg es st fs).2 st' fs' h
    refine ⟨he.1, he.2, fun more => ?_⟩
    obtain ⟨st'', σ'', hok⟩ := extendP_none_ok tt ck cv cσ s n cfg more st' fs'.store
    refine ⟨st'', σ'', hok, ?_⟩
    have h2 := (extendP_spec tt ck cv cσ s n cfg more st' ⟨fs'.store, none⟩).1 _ _ hok
    rw [h2.1, he.1]

/-- Witness for C5: a concrete failing extend preserves the entry. -/
theorem c5_extend_failure_atomicity_witness :
    flattenState (⟨[((5:Nat), (7:Nat))], []⟩ : BuilderState Nat Nat) =
      flattenState (initState : BuilderState Nat Nat) ++ [(5, 7)] :=
  ((c5_extend_failure_atomicity trivialSummary natCodec natCodec unitCodec [] [] ⟨1, 2⟩
    [(5, 7)] initState ⟨[], some 0⟩).2 ⟨[(5, 7)], []⟩ ⟨[], none⟩ rfl).1

/-- C6: during a lazy traversal, a Link that fails to load surfaces as the
terminal error of the sequence at the position where the load was needed:
over any degraded copy of the store, the items yielded up to the error are a
valid prefix of the full traversal, and if no error is reported the
traversal is complete. -/
theorem c6_traversal_failure {κ ν σ : Type} (tt : SummaryFn κ σ) (ck : Codec κ)
    (cv : Codec ν) (cσ : Codec σ) (s : Secrets) (n : NonceT) (nd : Node κ ν)
    (fuel : Nat) (store store' : Store) (ofs : Nat)
    (hwf : wfNode nd = true) (hp : persistedIn tt ck cv cσ s n store nd = true)
    (hf : nodeLevel nd < fuel) (hle : StoreLe store' store) :
    ((iterLink ck cv cσ s n fuel store' ofs (nodeLink tt ck cv cσ s n nd)).1 <+:
      enumFrom ofs (flatten nd)) ∧
    ((iterLink ck cv cσ s n fuel store' ofs (nodeLink tt ck cv cσ s n nd)).2 = none →
      (iterLink ck cv cσ s n fuel store' ofs (nodeLink tt ck cv cσ s n nd)).1 =
        enumFrom ofs (flatten nd)) :=
  iterLink_prefix tt ck cv cσ s n nd fuel store store' ofs hwf hp hf hle

/-- Witness for C6: traversing from an empty (fully degraded) store yields a
prefix of the full traversal. -/
theorem c6_traversal_failure_witness :
    (iterLink natCodec natCodec unitCodec ([] : Secrets) ([] : NonceT) 1 ([] : Store) 0
      (nodeLink trivialSummary natCodec natCodec unitCodec [] []
        (Node.leaf [((1:Nat), (2:Nat))]))).1 <+:
      enumFrom 0 (flatten (Node.leaf [((1:Nat), (2:Nat))])) :=
  (c6_traversal_failure trivialSummary natCodec natCodec unitCodec [] []
    (Node.leaf [(1, 2)]) 1
    (persistTree trivialSummary natCodec natCodec unitCodec [] [] (Node.leaf [(1, 2)]) [])
    [] 0 rfl (by decide) (by decide) (fun l b h => by simp [storeGet] at h)).1

/-- C7: calling `snapshot()` twice on the same builder with no intervening
`extend()` returns two Tree values that are equal in root Link, level, and
count. -/
theorem c7_snapshot_idempotent {κ ν σ : Type} (tt : SummaryFn κ σ) (ck : Codec κ)
    (cv : Codec ν) (cσ : Codec σ) (s : Secrets) (n : NonceT)
    (st : BuilderState κ ν) (store : Store) :
    (snapshotP tt ck cv cσ s n st (snapshotP tt ck cv cσ s n st store).2).1.root =
      (snapshotP tt ck cv cσ s n st store).1.root ∧
    (snapshotP tt ck cv cσ s n st (snapshotP tt ck cv cσ s n st store).2).1.level =
      (snapshotP tt ck cv cσ s n st store).1.level ∧
    (snapshotP tt ck cv cσ s n st (snapshotP tt ck cv cσ s n st store).2).1.count =
      (snapshotP tt ck cv cσ s n st store).1.count := by
  cases hroot : snapshotNode st <;> simp [snapshotP, hroot]

/-- C8: persisting a node is a deterministic pure function of the node's
encoded bytes plus Secrets plus Nonce: persisting identical node content
twice yields the same Link and does not create a second distinct store entry
(the store is unchanged by the second persist). -/
theorem c8_content_addressing {κ ν σ : Type} (tt : SummaryFn κ σ) (ck : Codec κ)
    (cv : Codec ν) (cσ : Codec σ) (s : Secrets) (n : NonceT)
    (nd : Node κ ν) (store : Store) (hwf : wfStoreB store = true) :
    (persistNode tt ck cv cσ s n nd (persistNode tt ck cv cσ s n nd store).2).1 =
      (persistNode tt ck cv cσ s n nd store).1 ∧
    (persistNode tt ck cv cσ s n nd (persistNode tt ck cv cσ s n nd store).2).2 =
      (persistNode tt ck cv cσ s n nd store).2 := by
  refine ⟨rfl, ?_⟩
  simp only [persistNode]
  exact persistTree_of_persisted tt ck cv cσ s n nd _
    (persistedIn_after tt ck cv cσ s n nd store hwf)

/-- Witness for C8: re-persisting a concrete leaf leaves the store
unchanged. -/
theorem c8_content_addressing_witness :
    (persistNode trivialSummary natCodec natCodec unitCodec [] []
        (Node.leaf [((1:Nat), (2:Nat))])
        (persistNode trivialSummary natCodec natCodec unitCodec [] []
          (Node.leaf [(1, 2)]) []).2).2 =
      (persistNode trivialSummary natCodec natCodec unitCodec [] []
        (Node.leaf [(1, 2)]) []).2 :=
  (c8_content_addressing trivialSummary natCodec natCodec unitCodec [] []
    (Node.leaf [(1, 2)]) [] rfl).2

/-- C9: encrypted node payloads written under one `(Secrets, Nonce)` pair
cannot be decrypted under a different pair: loading the persisted block with
a mismatched pair yields `Corrupt` (never silently wrong data), while
loading with the original pair yields the block. -/
theorem c9_encryption_isolation {κ ν σ : Type} (tt : SummaryFn κ σ) (ck : Codec κ)
    (cv : Codec ν) (cσ : Codec σ) (s n s' n' : List Nat) (nd : Node κ ν) (store : Store)
    (hwf : wfStoreB store = true) (hne : ¬(s = s' ∧ n = n')) :
    loadBlock ck cv cσ s' n' (persistNode tt ck cv cσ s n nd store).2
        (persistNode tt ck cv cσ s n nd store).1 = .error .corrupt ∧
    loadBlock ck cv cσ s n (persistNode tt ck cv cσ s n nd store).2
        (persistNode tt ck cv cσ s n nd store).1 =
      .ok (blockOfNode tt ck cv cσ s n nd) := by
  have hget := persistedIn_own_get tt ck cv cσ s n
    (persistedIn_after tt ck cv cσ s n nd store hwf)
  have hb : nodeBytes tt ck cv cσ s n nd =
      encrypt s n (encodeBlock ck cv cσ (blockOfNode tt ck cv cσ s n nd)) := rfl
  constructor
  · simp only [persistNode, loadBlock, hget, hb, decrypt_encrypt_ne s n s' n' _ hne]
  · simp only [persistNode, loadBlock, hget, hb, decrypt_encrypt, decodeBlock_encodeBlock]

/-- Witness for C9: a block sealed under `([0], [1])` does not decrypt under
`([0], [2])`. -/
theorem c9_encryption_isolation_witness :
    loadBlock natCodec natCodec unitCodec [0] [2]
        (persistNode trivialSummary natCodec natCodec unitCodec [0] [1]
          (Node.leaf [((1:Nat), (2:Nat))]) []).2
        (persistNode trivialSummary natCodec natCodec unitCodec [0] [1]
          (Node.leaf [(1, 2)]) []).1 = .error .corrupt :=
  (c9_encryption_isolation trivialSummary natCodec natCodec unitCodec [0] [1] [0] [2]
    (Node.leaf [(1, 2)]) [] rfl (by decide)).1

/-- C10: in `custom_index_example`, `RangeQuery` treats both bounds as
inclusive: `containing` flags a key `k` exactly when `min ≤ k ∧ k ≤ max`,
and `intersecting` flags a child summary exactly when the closed intervals
`[summary.min, summary.max]` and `[min, max]` (both nonempty) share a point
— so an entry whose key equals `min` or `max` is kept. -/
theorem c10_rangequery_inclusive (q : RangeQuery) :
    (∀ (ofs : Nat) (keys : List Nat) (i : Nat) (k : Nat), keys[i]? = some k →
      ((q.containing ofs keys)[i]? = some true ↔ q.min ≤ k ∧ k ≤ q.max)) ∧
    (∀ (ofs : Nat) (sums : List KeyRange) (i : Nat) (sm : KeyRange), sums[i]? = some sm →
      sm.min ≤ sm.max → q.min ≤ q.max →
      ((q.intersecting ofs sums)[i]? = some true ↔
        ∃ x, sm.min ≤ x ∧ x ≤ sm.max ∧ q.min ≤ x ∧ x ≤ q.max)) := by
  constructor
  · intro ofs keys i k hk
    simp only [RangeQuery.containing, map_getElem?, hk, Option.map_some',
      Option.some.injEq, Bool.and_eq_true, decide_eq_true_eq, ge_iff_le]
  · intro ofs sums i sm hsm hs hq
    simp only [RangeQuery.intersecting, map_getElem?, hsm, Option.map_some',
      Option.some.injEq]
    constructor
    · intro h
      have h3 : ¬(sm.min > q.max ∨ sm.max < q.min) := by simpa using h
      refine ⟨max sm.min q.min, ?_, ?_, ?_, ?_⟩ <;> omega
    · rintro ⟨x, hx1, hx2, hx3, hx4⟩
      have h1 : ¬ q.max < sm.min := by omega
      have h2 : ¬ sm.max < q.min := by omega
      simp [h1, h2]

/-- Witness for C10: with range `[10, 100]`, key `50` is flagged and the
summary range `[5, 500]` intersects. -/
theorem c10_rangequery_inclusive_witness :
    ((RangeQuery.mk 10 100).containing 0 [5, 50, 500])[1]? = some true ∧
    ((RangeQuery.mk 10 100).intersecting 0 [KeyRange.mk 5 500])[0]? = some true :=
  ⟨((c10_rangequery_inclusive ⟨10, 100⟩).1 0 [5, 50, 500] 1 50 (by decide)).mpr
      (by decide),
   ((c10_rangequery_inclusive ⟨10, 100⟩).2 0 [⟨5, 500⟩] 0 ⟨5, 500⟩ (by decide) (by decide)
      (by decide)).mpr ⟨50, by decide, by decide, by decide, by decide⟩⟩

end Banyan

